import Mathlib

/-!
Verification of the arrangement check-and-fix engine of `arrangement_check.py`
(class `MayaModelCheck` and the orchestrator `arrangement_check_and_fix`).

The Python code manipulates scene objects through the Maya API: an object is a
string name; `cmds.getAttr` resolves its translation, `cmds.polyEvaluate` its
face count, and `cmds.setAttr` writes a translation component.  We embed the
scene host as a structure of two functions (`Scene`), numbers as exact
rationals, and `x ** 0.5` as the rational square root `ratSqrt` (exact on
perfect squares).  `list.sort(key=...)` is a stable ascending sort, embedded
as insertion sort by the key.  Python exceptions (`IndexError` from `d[1]` or
`sphere[-1]`, `ZeroDivisionError` from `D / n`) are embedded with `Except`.
-/

namespace AstroCheck

/-- Fuel-driven upward search for the integer square root: starting from
candidate `r` with `r * r ≤ n`, keep incrementing while the next candidate
still squares below `n`. -/
def isqrtFrom (n : ℕ) : ℕ → ℕ → ℕ
  | 0, r => r
  | fuel+1, r => if (r+1)*(r+1) ≤ n then isqrtFrom n fuel (r+1) else r

/-- Integer square root (floor), by structural recursion so that concrete
instances reduce inside the kernel. -/
def isqrt (n : ℕ) : ℕ := isqrtFrom n n 0

theorem isqrtFrom_eq (n : ℕ) : ∀ (fuel r : ℕ), r * r ≤ n → Nat.sqrt n ≤ r + fuel →
    isqrtFrom n fuel r = Nat.sqrt n := by
  intro fuel
  induction fuel with
  | zero =>
    intro r h1 h2
    have : r ≤ Nat.sqrt n := Nat.le_sqrt.mpr h1
    simp only [isqrtFrom]
    omega
  | succ fuel ih =>
    intro r h1 h2
    simp only [isqrtFrom]
    by_cases h : (r+1)*(r+1) ≤ n
    · simp only [h, if_true]
      exact ih (r+1) h (by omega)
    · simp only [h, if_false]
      have hlt : Nat.sqrt n < r + 1 := Nat.sqrt_lt.mpr (by omega)
      have : r ≤ Nat.sqrt n := Nat.le_sqrt.mpr h1
      omega

theorem isqrt_eq (n : ℕ) : isqrt n = Nat.sqrt n :=
  isqrtFrom_eq n n 0 (by omega) (by simpa using Nat.sqrt_le_self n)

/-- Rational square root, the embedding of Python `x ** 0.5` on the
nonnegative rationals produced by sums of squares: exact whenever the value
is a perfect rational square.  Extensionally equal to Mathlib `Rat.sqrt`
(see `ratSqrt_eq_sqrt`), but kernel-computable. -/
def ratSqrt (q : ℚ) : ℚ := mkRat (isqrt q.num.toNat) (isqrt q.den)

theorem ratSqrt_eq_sqrt (q : ℚ) : ratSqrt q = Rat.sqrt q := by
  unfold ratSqrt Rat.sqrt Int.sqrt
  rw [isqrt_eq, isqrt_eq]

theorem ratSqrt_sq_nonneg (q : ℚ) (h : 0 ≤ q) : ratSqrt (q * q) = q := by
  rw [ratSqrt_eq_sqrt, Rat.sqrt_eq, abs_of_nonneg h]

theorem ratSqrt_nonneg (q : ℚ) : 0 ≤ ratSqrt q := by
  rw [ratSqrt_eq_sqrt]; exact Rat.sqrt_nonneg q

theorem ratSqrt_pos (q : ℚ) (h : 0 < q) : 0 < ratSqrt q := by
  rw [ratSqrt_eq_sqrt]
  have hnum : 0 < q.num := Rat.num_pos.mpr h
  have h1 : 0 < Nat.sqrt q.num.toNat := Nat.sqrt_pos.mpr (by omega)
  have h2 : 0 < Nat.sqrt q.den := Nat.sqrt_pos.mpr q.pos
  have hne : Rat.sqrt q ≠ 0 := by
    unfold Rat.sqrt
    rw [Rat.mkRat_ne_zero (by omega)]
    unfold Int.sqrt
    simpa using by omega
  rcases lt_or_eq_of_le (Rat.sqrt_nonneg q) with h | h
  · exact h
  · exact absurd h.symm hne

/-- Python's substring test `needle in hay` on object names. -/
def strContains (hay needle : String) : Bool :=
  decide (needle.toList <:+: hay.toList)

theorem strContains_trans {a b c : String} (h1 : strContains b a = true)
    (h2 : strContains c b = true) : strContains c a = true := by
  simp only [strContains, decide_eq_true_eq] at *
  exact h1.trans h2

/-- `"pSphere" in o` entails `"Sphere" in o`: the sphere marker used by the
correction order is a substring of the one used by the predicates. -/
theorem sphere_of_pSphere {o : String} (h : strContains o "pSphere" = true) :
    strContains o "Sphere" = true := by
  refine strContains_trans ?_ h
  decide

instance {ε α : Type} [DecidableEq ε] [DecidableEq α] : DecidableEq (Except ε α) :=
  fun a b => match a, b with
  | .ok x, .ok y => decidable_of_iff (x = y) (by simp)
  | .error e, .error f => decidable_of_iff (e = f) (by simp)
  | .ok _, .error _ => isFalse (by simp)
  | .error _, .ok _ => isFalse (by simp)

/-- A 3-component position or vector (the Python coordinate lists). -/
structure Vec3 where
  x : ℚ
  y : ℚ
  z : ℚ
deriving DecidableEq, Repr

/-- The scene-host interface: position (`getAttr` of tx, ty, tz) and face
count (`polyEvaluate`) per object name. -/
structure Scene where
  pos : String → Vec3
  faces : String → ℤ

/-- Python exception kinds reachable in this module. -/
inductive PyErr where
  | indexError
  | zeroDivisionError
deriving DecidableEq, Repr

/-- Key-based weak order used to model `list.sort(key=k)`. -/
def keyLE {α β : Type} [LinearOrder β] (k : α → β) : α → α → Prop :=
  fun a b => k a ≤ k b

instance {α β : Type} [LinearOrder β] (k : α → β) : DecidableRel (keyLE k) :=
  fun a b => inferInstanceAs (Decidable (k a ≤ k b))

instance {α β : Type} [LinearOrder β] (k : α → β) : IsTotal α (keyLE k) :=
  ⟨fun a b => le_total (k a) (k b)⟩

instance {α β : Type} [LinearOrder β] (k : α → β) : IsTrans α (keyLE k) :=
  ⟨fun _ _ _ h1 h2 => le_trans h1 h2⟩

/-- Python `list.sort(key=k)`: stable ascending sort by key, embedded as
insertion sort (stable, ascending, so extensionally the same sort). -/
def sortByKey {α β : Type} [LinearOrder β] (k : α → β) (l : List α) : List α :=
  l.insertionSort (keyLE k)

/-- The pairs `(l[i], l[i+1])` traversed by the `for i in range(len(l)-1)`
loops. -/
def consecPairs {α : Type} (l : List α) : List (α × α) := l.zip l.tail

/-- Python `obj[-1]` (only ever evaluated on names containing `"pSphere"`,
hence nonempty; the default is unreachable). -/
def lastChar (s : String) : Char := s.toList.getLastD 'A'

/-! ### Embedding of the `MayaModelCheck` methods -/

/-- `distance_bw_points`: Euclidean distance between two positions. -/
def distance_bw_points (p1 p2 : Vec3) : ℚ :=
  ratSqrt ((p1.x - p2.x)^2 + (p1.y - p2.y)^2 + (p1.z - p2.z)^2)

/-- `magnitude`: Euclidean norm of a vector. -/
def magnitude (v : Vec3) : ℚ :=
  ratSqrt (v.x^2 + v.y^2 + v.z^2)

/-- `vector_bw_obj`: component-wise `v2 - v1`. -/
def vector_bw_obj (v1 v2 : Vec3) : Vec3 :=
  ⟨v2.x - v1.x, v2.y - v1.y, v2.z - v1.z⟩

/-- `distance_from_center`: distance of an object position from the origin. -/
def distance_from_center (sc : Scene) (obj : String) : ℚ :=
  distance_bw_points ⟨0, 0, 0⟩ (sc.pos obj)

/-- `cross_product`: the 3D cross product. -/
def cross_product (v1 v2 : Vec3) : Vec3 :=
  ⟨v1.y * v2.z - v1.z * v2.y, v1.z * v2.x - v1.x * v2.z, v1.x * v2.y - v1.y * v2.x⟩

/-- Core of `check_if_in_line`, acting on the gathered position list:
consecutive displacement vectors, then consecutive cross products, each
tested for magnitude exactly zero; `False in results` fails the check. -/
def inLinePositions (ps : List Vec3) : Bool :=
  let vectors := (consecPairs ps).map fun p => vector_bw_obj p.1 p.2
  let results := (consecPairs vectors).map fun p =>
    decide (magnitude (cross_product p.1 p.2) = 0)
  !results.contains false

/-- `check_if_in_line`. -/
def check_if_in_line (sc : Scene) (objList : List String) : Bool :=
  inLinePositions (objList.map sc.pos)

/-- `if_equally_spaced`: sorts the distances-from-origin, takes `d[1] - d[0]`
as the reference gap (an `IndexError` when fewer than two objects), and
requires every consecutive gap to equal it exactly. -/
def if_equally_spaced (sc : Scene) (objList : List String) : Except PyErr Bool :=
  let dfo := sortByKey id (objList.map fun o => magnitude (sc.pos o))
  match dfo[1]?, dfo[0]? with
  | some d1, some d0 =>
    let difference := d1 - d0
    let check := (consecPairs dfo).map fun p => decide (p.2 - p.1 = difference)
    .ok (!check.contains false)
  | _, _ => .error .indexError

/-- `if_right_order`: for every object containing `"pSphere"`, every object
containing `"pSolid"` followed by the sphere name's last character must not
be strictly closer to the origin. -/
def if_right_order (sc : Scene) (objList : List String) : Bool :=
  objList.all fun obj =>
    if strContains obj "pSphere" then
      let solid_name := "pSolid".push (lastChar obj)
      objList.all fun obj2 =>
        if strContains obj2 solid_name then
          !decide (distance_from_center sc obj2 < distance_from_center sc obj)
        else true
    else true

/-- `if_right_order_poly`: the objects containing `"pSolid"`, in list order,
must have non-decreasing face counts. -/
def if_right_order_poly (sc : Scene) (objList : List String) : Bool :=
  let polysolids := objList.filter fun o => strContains o "pSolid"
  (consecPairs polysolids).all fun p => !decide (sc.faces p.2 < sc.faces p.1)

/-- The sphere selected by `distance_for_furthestsphere`: last element of the
`"pSphere"`-filtered list sorted by distance from origin (`sphere[-1]`). -/
def furthest_sphere (sc : Scene) (objList : List String) : Option String :=
  (sortByKey (distance_from_center sc)
    (objList.filter fun o => strContains o "pSphere")).getLast?

/-- `distance_for_furthestsphere`: distance from origin of the furthest
sphere; `sphere[-1]` raises an `IndexError` when there is no sphere. -/
def distance_for_furthestsphere (sc : Scene) (objList : List String) :
    Except PyErr ℚ :=
  match furthest_sphere sc objList with
  | some s => .ok (distance_from_center sc s)
  | none => .error .indexError

/-- `no_of_spheres`: number of objects containing `"pSphere"`. -/
def no_of_spheres (objList : List String) : ℕ :=
  (objList.filter fun o => strContains o "pSphere").length

/-- `new_order_for_fixed_arrangement`: objects containing `"Sphere"` sorted
ascending by distance from origin, followed by the remaining objects sorted
ascending by face count. -/
def new_order_for_fixed_arrangement (sc : Scene) (objList : List String) :
    List String :=
  sortByKey (distance_from_center sc) (objList.filter fun o => strContains o "Sphere")
    ++ sortByKey sc.faces (objList.filter fun o => !strContains o "Sphere")

/-- `fix_arrangement` as the list of `setAttr` writes it performs: the i-th
object (0-indexed) of the new order is sent to
`(spacing * (i+1), 0, 0)` where `spacing = D / n`. -/
def fix_arrangement (sc : Scene) (objList : List String) :
    Except PyErr (List (String × Vec3)) := do
  let distance ← distance_for_furthestsphere sc objList
  let n := no_of_spheres objList
  if n = 0 then
    .error .zeroDivisionError
  else
    let new_spacing_bw_objs := distance / (n : ℚ)
    let order := new_order_for_fixed_arrangement sc objList
    .ok (order.enum.map fun p => (p.2, ⟨new_spacing_bw_objs * ((p.1 : ℚ) + 1), 0, 0⟩))

/-- Execute the `setAttr` writes of a fix plan against the scene, in order
(a later write to the same name wins, as sequential `setAttr` calls do). -/
def applyPlan (sc : Scene) (plan : List (String × Vec3)) : Scene :=
  plan.foldl (fun s p => ⟨fun o => if o = p.1 then p.2 else s.pos o, s.faces⟩) sc

/-- The orchestrator's shape-filtering loop, which removes entries while
iterating (`for descendents in obj_list: if "Shape" in descendents:
obj_list.remove(descendents)`): the internal index advances by one every
iteration even when the current entry was just removed, so the element that
slides into the freed slot is skipped.  The fuel equals the initial length,
which bounds the number of iterations since the loop stops as soon as the
index reaches the (never growing) current length. -/
def shapeFilterGo (fuel : ℕ) (i : ℕ) (l : List String) : List String :=
  match fuel with
  | 0 => l
  | fuel+1 =>
    if h : i < l.length then
      let item := l.get ⟨i, h⟩
      if strContains item "Shape" then shapeFilterGo fuel (i+1) (l.erase item)
      else shapeFilterGo fuel (i+1) l
    else l

/-- The filtered object list the orchestrator works with. -/
def shapeFilterLoop (l : List String) : List String := shapeFilterGo l.length 0 l

/-- One conditional invocation of the correction algorithm, threading the
scene and counting invocations. -/
def fixIf (c : Bool) (objList : List String) (p : Scene × ℕ) :
    Except PyErr (Scene × ℕ) :=
  if c then
    match fix_arrangement p.1 objList with
    | .ok plan => .ok (applyPlan p.1 plan, p.2 + 1)
    | .error e => .error e
  else .ok p

/-- `arrangement_check_and_fix`: filter out shape nodes, sort by distance
from origin, evaluate the four predicates on the sorted list, then invoke the
correction once per failed category (equal spacing; collinearity; the
combined ordering category), each time on the same sorted list.  Returns the
final scene and the number of correction invocations. -/
def arrangement_check_and_fix (sc : Scene) (raw : List String) :
    Except PyErr (Scene × ℕ) :=
  let objList := sortByKey (distance_from_center sc) (shapeFilterLoop raw)
  match if_equally_spaced sc objList with
  | .error e => .error e
  | .ok b1 =>
    let b2 := check_if_in_line sc objList
    let b3 := if_right_order_poly sc objList
    let b4 := if_right_order sc objList
    (fixIf (!b1) objList (sc, 0)).bind fun p =>
      (fixIf (!b2) objList p).bind fun q =>
        fixIf (!(b4 || b3)) objList q

/-! ### General helper lemmas -/

theorem consecPairs_eq_nil {α : Type} {l : List α} (h : l.length ≤ 1) :
    consecPairs l = [] := by
  match l, h with
  | [], _ => rfl
  | [a], _ => rfl

theorem consecPairs_length {α : Type} (l : List α) :
    (consecPairs l).length = l.length - 1 := by
  simp only [consecPairs, List.length_zip, List.length_tail]
  omega

theorem consecPairs_getElem {α : Type} (l : List α) (i : ℕ)
    (h : i < (consecPairs l).length) :
    (consecPairs l).get ⟨i, h⟩ =
      (l.get ⟨i, by rw [consecPairs_length] at h; omega⟩,
       l.get ⟨i+1, by rw [consecPairs_length] at h; omega⟩) := by
  simp only [consecPairs, List.get_eq_getElem, List.getElem_zip, List.getElem_tail]

/-- A scene with every object at the origin and zero faces. -/
def trivialScene : Scene := ⟨fun _ => ⟨0, 0, 0⟩, fun _ => 0⟩

/-! ### C3: predicates on lists of fewer than two objects -/

/-- C3, amended: with fewer than 2 objects, `check_if_in_line`,
`if_right_order` and `if_right_order_poly` report success vacuously, while
`if_equally_spaced` raises an `IndexError` (from reading `d[1]`) instead of
reporting success. -/
theorem c3_small_inputs (sc : Scene) (l : List String) (h : l.length < 2) :
    check_if_in_line sc l = true ∧ if_right_order sc l = true ∧
    if_right_order_poly sc l = true ∧
    if_equally_spaced sc l = .error .indexError := by
  match l, h with
  | [], _ =>
    refine ⟨rfl, rfl, rfl, rfl⟩
  | [a], _ =>
    refine ⟨rfl, ?_, ?_, rfl⟩
    · simp only [if_right_order, List.all_cons, List.all_nil, Bool.and_true]
      split
      · split
        · simp [lt_irrefl]
        · rfl
      · rfl
    · simp only [if_right_order_poly]
      rw [consecPairs_eq_nil (le_trans (List.length_filter_le _ _) (by simp))]
      rfl

/-- C3, counterexample to the claim as stated: on the empty list the
equal-spacing predicate raises an `IndexError`; it does not return `true`. -/
theorem c3_counterexample :
    if_equally_spaced trivialScene [] = .error .indexError ∧
    Except.error PyErr.indexError ≠ (.ok true : Except PyErr Bool) := by
  exact ⟨rfl, by decide⟩

/-- C3 witness: the amended statement at a concrete one-object input. -/
theorem c3_small_inputs_witness :
    check_if_in_line trivialScene ["pSphere1"] = true ∧
    if_right_order trivialScene ["pSphere1"] = true ∧
    if_right_order_poly trivialScene ["pSphere1"] = true ∧
    if_equally_spaced trivialScene ["pSphere1"] = .error .indexError :=
  c3_small_inputs trivialScene ["pSphere1"] (by decide)

/-! ### C4: correcting a set with zero spheres -/

/-- C4, amended: on any list with no `"pSphere"` object, `fix_arrangement`
fails with an `IndexError` — raised by `sphere[-1]` in
`distance_for_furthestsphere` — before the spacing division is ever reached;
it does not silently succeed. -/
theorem c4_no_spheres (sc : Scene) (l : List String)
    (h : ∀ o ∈ l, strContains o "pSphere" = false) :
    fix_arrangement sc l = .error .indexError := by
  have hfil : (l.filter fun o => strContains o "pSphere") = [] := by
    simp only [List.filter_eq_nil_iff]
    intro o ho
    simp [h o ho]
  have hd : distance_for_furthestsphere sc l = .error .indexError := by
    simp [distance_for_furthestsphere, furthest_sphere, hfil, sortByKey,
      List.insertionSort]
  show Except.bind (distance_for_furthestsphere sc l) _ = _
  rw [hd]
  rfl

/-- C4, counterexample to the claim as stated: with zero spheres the failure
is an `IndexError` from selecting the furthest sphere of an empty list, not
a `ZeroDivisionError` from the spacing division. -/
theorem c4_counterexample :
    fix_arrangement trivialScene ["pSolid1"] = .error .indexError ∧
    PyErr.indexError ≠ PyErr.zeroDivisionError := by
  exact ⟨by with_unfolding_all decide, by decide⟩

/-- C4 witness: the amended statement at a concrete zero-sphere input. -/
theorem c4_no_spheres_witness :
    fix_arrangement trivialScene ["pSolid1", "pCube1"] = .error .indexError :=
  c4_no_spheres trivialScene ["pSolid1", "pCube1"] (by decide)

/-! ### C7: face-count ordering characterization -/

theorem consecPairs_all_iff {α : Type} (p : α × α → Bool) (l : List α) :
    (consecPairs l).all p = true ↔
      ∀ (i : ℕ) (h : i + 1 < l.length),
        p (l.get ⟨i, by omega⟩, l.get ⟨i+1, h⟩) = true := by
  rw [List.all_eq_true]
  constructor
  · intro hall i h
    have hi : i < (consecPairs l).length := by rw [consecPairs_length]; omega
    have hmem := hall _ (List.get_mem (consecPairs l) i hi)
    rwa [consecPairs_getElem] at hmem
  · intro hidx x hx
    obtain ⟨⟨i, hi⟩, rfl⟩ := List.mem_iff_get.mp hx
    rw [consecPairs_getElem]
    exact hidx i (by rw [consecPairs_length] at hi; omega)

theorem if_right_order_poly_eq_true_iff (sc : Scene) (l : List String) :
    if_right_order_poly sc l = true ↔
      ∀ (i : ℕ) (h : i + 1 < (l.filter fun o => strContains o "pSolid").length),
        sc.faces ((l.filter fun o => strContains o "pSolid").get ⟨i, by omega⟩) ≤
          sc.faces ((l.filter fun o => strContains o "pSolid").get ⟨i+1, h⟩) := by
  simp only [if_right_order_poly]
  rw [consecPairs_all_iff]
  refine forall_congr' fun i => forall_congr' fun h => ?_
  simp [not_lt]

/-- C7: `if_right_order_poly` fails exactly when some adjacent pair of
solids, in the given order, has a strict face-count decrease; equivalently it
succeeds exactly when the solids' face counts are non-decreasing (a
`Chain'` of `≤` along the filtered solid list). -/
theorem c7_face_count_order (sc : Scene) (l : List String) :
    (if_right_order_poly sc l = false ↔
      ∃ (i : ℕ) (h : i + 1 < (l.filter fun o => strContains o "pSolid").length),
        sc.faces ((l.filter fun o => strContains o "pSolid").get ⟨i+1, h⟩) <
          sc.faces ((l.filter fun o => strContains o "pSolid").get ⟨i, by omega⟩)) ∧
    (if_right_order_poly sc l = true ↔
      List.Chain' (fun a b => sc.faces a ≤ sc.faces b)
        (l.filter fun o => strContains o "pSolid")) := by
  constructor
  · rw [Bool.eq_false_iff, Ne, if_right_order_poly_eq_true_iff]
    push_neg
    exact Iff.rfl
  · rw [if_right_order_poly_eq_true_iff, List.chain'_iff_get]
    constructor
    · intro hfa i h
      exact hfa i (by omega)
    · intro hfa i h
      exact hfa i (by omega)

/-! ### C6: sphere-before-solid ordering characterization -/

theorem if_right_order_eq_true_iff (sc : Scene) (l : List String) :
    if_right_order sc l = true ↔
      ∀ o ∈ l, strContains o "pSphere" = true →
        ∀ o2 ∈ l, strContains o2 ("pSolid".push (lastChar o)) = true →
          ¬(distance_from_center sc o2 < distance_from_center sc o) := by
  simp only [if_right_order, List.all_eq_true]
  refine forall_congr' fun o => forall_congr' fun ho => ?_
  by_cases h : strContains o "pSphere" = true
  · simp only [h, if_true, List.all_eq_true, forall_true_left]
    refine forall_congr' fun o2 => forall_congr' fun ho2 => ?_
    by_cases h2 : strContains o2 ("pSolid".push (lastChar o)) = true
    · simp [h2]
    · simp [h2]
  · simp [h]

/-- C6, amended: `if_right_order` returns false iff some object containing
`"pSphere"` has some object in the list containing `"pSolid"` followed by
the sphere name's last character that is strictly closer to the origin; a
sphere with no such match contributes no violation. -/
theorem c6_sphere_solid_order (sc : Scene) (l : List String) :
    if_right_order sc l = false ↔
      ∃ o ∈ l, strContains o "pSphere" = true ∧
        ∃ o2 ∈ l, strContains o2 ("pSolid".push (lastChar o)) = true ∧
          distance_from_center sc o2 < distance_from_center sc o := by
  rw [Bool.eq_false_iff, Ne, if_right_order_eq_true_iff]
  push_neg
  rfl

/-- Scene for the C6 counterexample: the solid `pSolid12` sits at distance 1
from the origin, every other object at distance 5. -/
def c6Scene : Scene :=
  ⟨fun o => if o = "pSolid12" then ⟨1, 0, 0⟩ else ⟨5, 0, 0⟩, fun _ => 0⟩

/-- C6, counterexample to the claim as stated: `pSolid12` shares the numeric
index suffix `12` of `pSphere12` and is strictly closer to the origin, so
the claimed equivalence demands `false`; but the code pairs through the last
character only (looking for substring `"pSolid2"`, which `"pSolid12"` does
not contain) and returns `true`. -/
theorem c6_counterexample :
    if_right_order c6Scene ["pSphere12", "pSolid12"] = true ∧
    distance_from_center c6Scene "pSolid12" <
      distance_from_center c6Scene "pSphere12" := by
  with_unfolding_all decide

/-! ### Vec3 algebra (proof infrastructure for the collinearity claim) -/

attribute [ext] Vec3

instance : Add Vec3 := ⟨fun a b => ⟨a.x + b.x, a.y + b.y, a.z + b.z⟩⟩

instance : Sub Vec3 := ⟨fun a b => ⟨a.x - b.x, a.y - b.y, a.z - b.z⟩⟩

instance : SMul ℚ Vec3 := ⟨fun k v => ⟨k * v.x, k * v.y, k * v.z⟩⟩

theorem Vec3.add_def (a b : Vec3) : a + b = ⟨a.x + b.x, a.y + b.y, a.z + b.z⟩ := rfl

theorem Vec3.sub_def (a b : Vec3) : a - b = ⟨a.x - b.x, a.y - b.y, a.z - b.z⟩ := rfl

theorem Vec3.smul_def (k : ℚ) (v : Vec3) : k • v = ⟨k * v.x, k * v.y, k * v.z⟩ := rfl

theorem vector_bw_obj_eq_sub (a b : Vec3) : vector_bw_obj a b = b - a := rfl

theorem Vec3.ne_zero_iff (v : Vec3) :
    v ≠ (⟨0, 0, 0⟩ : Vec3) ↔ v.x ≠ 0 ∨ v.y ≠ 0 ∨ v.z ≠ 0 := by
  constructor
  · intro h
    by_contra hc
    push_neg at hc
    exact h (by ext <;> simp [hc.1, hc.2.1, hc.2.2])
  · intro h hc
    subst hc
    simp at h

theorem Vec3.smul_ne_zero {k : ℚ} {v : Vec3} (hk : k ≠ 0)
    (hv : v ≠ (⟨0, 0, 0⟩ : Vec3)) : k • v ≠ (⟨0, 0, 0⟩ : Vec3) := by
  rw [Vec3.ne_zero_iff] at hv ⊢
  rw [Vec3.smul_def]
  rcases hv with h | h | h
  · exact Or.inl (mul_ne_zero hk h)
  · exact Or.inr (Or.inl (mul_ne_zero hk h))
  · exact Or.inr (Or.inr (mul_ne_zero hk h))

theorem Vec3.smul_right_cancel {a b : ℚ} {d : Vec3}
    (hd : d ≠ (⟨0, 0, 0⟩ : Vec3)) (h : a • d = b • d) : a = b := by
  rw [Vec3.ne_zero_iff] at hd
  rw [Vec3.smul_def, Vec3.smul_def, Vec3.mk.injEq] at h
  rcases hd with hx | hy | hz
  · exact mul_right_cancel₀ hx h.1
  · exact mul_right_cancel₀ hy h.2.1
  · exact mul_right_cancel₀ hz h.2.2

theorem ratSqPos (a : ℚ) (h : a ≠ 0) : 0 < a ^ 2 := by
  rw [pow_two]
  exact mul_self_pos.mpr h

theorem magnitude_eq_zero_iff (v : Vec3) :
    magnitude v = 0 ↔ v = (⟨0, 0, 0⟩ : Vec3) := by
  constructor
  · intro h
    by_contra hv
    rw [← ne_eq, Vec3.ne_zero_iff] at hv
    have hpos : 0 < v.x^2 + v.y^2 + v.z^2 := by
      have hx := sq_nonneg v.x
      have hy := sq_nonneg v.y
      have hz := sq_nonneg v.z
      rcases hv with h0 | h0 | h0 <;>
        [have := ratSqPos v.x h0; have := ratSqPos v.y h0;
         have := ratSqPos v.z h0] <;> linarith
    have hgt := ratSqrt_pos _ hpos
    rw [magnitude] at h
    rw [h] at hgt
    exact lt_irrefl 0 hgt
  · intro h
    subst h
    show ratSqrt ((0:ℚ)^2 + 0^2 + 0^2) = 0
    with_unfolding_all decide

/-! ### Characterization of `inLinePositions` by indexed cross products -/

theorem bool_not_contains_false (l : List Bool) :
    (!l.contains false) = l.all (fun b => b) := by
  induction l with
  | nil => rfl
  | cons a t ih =>
    cases a <;> simp_all

theorem inLinePositions_iff (ps : List Vec3) :
    inLinePositions ps = true ↔
      ∀ (i : ℕ) (h : i + 2 < ps.length),
        cross_product
          (vector_bw_obj (ps.get ⟨i, by omega⟩) (ps.get ⟨i+1, by omega⟩))
          (vector_bw_obj (ps.get ⟨i+1, by omega⟩) (ps.get ⟨i+2, h⟩)) =
        (⟨0, 0, 0⟩ : Vec3) := by
  unfold inLinePositions
  rw [bool_not_contains_false, List.all_eq_true]
  constructor
  · intro hall i h
    have hlen : i < (consecPairs ((consecPairs ps).map fun p =>
        vector_bw_obj p.1 p.2)).length := by
      rw [consecPairs_length, List.length_map, consecPairs_length]
      omega
    have hmem := hall _ (List.mem_map_of_mem _ (List.get_mem _ i hlen))
    rw [consecPairs_getElem] at hmem
    simp only [List.get_eq_getElem, List.getElem_map, decide_eq_true_eq] at hmem
    rw [magnitude_eq_zero_iff] at hmem
    have e1 : i < (consecPairs ps).length := by rw [consecPairs_length]; omega
    have e2 : i + 1 < (consecPairs ps).length := by rw [consecPairs_length]; omega
    rw [show ((consecPairs ps)[i] : Vec3 × Vec3) =
        (consecPairs ps).get ⟨i, e1⟩ from rfl,
      show ((consecPairs ps)[i+1] : Vec3 × Vec3) =
        (consecPairs ps).get ⟨i+1, e2⟩ from rfl,
      consecPairs_getElem, consecPairs_getElem] at hmem
    simpa using hmem
  · intro hidx x hx
    obtain ⟨p, hp, rfl⟩ := List.mem_map.mp hx
    obtain ⟨⟨i, hi⟩, rfl⟩ := List.mem_iff_get.mp hp
    simp only [decide_eq_true_eq]
    rw [consecPairs_getElem]
    simp only [List.get_eq_getElem, List.getElem_map]
    have hlen : i + 2 < ps.length := by
      rw [consecPairs_length, List.length_map, consecPairs_length] at hi
      omega
    have e1 : i < (consecPairs ps).length := by rw [consecPairs_length]; omega
    have e2 : i + 1 < (consecPairs ps).length := by rw [consecPairs_length]; omega
    rw [show ((consecPairs ps)[i] : Vec3 × Vec3) =
        (consecPairs ps).get ⟨i, e1⟩ from rfl,
      show ((consecPairs ps)[i+1] : Vec3 × Vec3) =
        (consecPairs ps).get ⟨i+1, e2⟩ from rfl,
      consecPairs_getElem, consecPairs_getElem]
    rw [magnitude_eq_zero_iff]
    simpa using hidx i hlen

/-! ### Cross-product linear dependence and the common-line lemma -/

theorem cross_dep {u v : Vec3} (hu : u ≠ (⟨0, 0, 0⟩ : Vec3))
    (h : cross_product u v = (⟨0, 0, 0⟩ : Vec3)) : ∃ k : ℚ, v = k • u := by
  rw [Vec3.ne_zero_iff] at hu
  rw [cross_product, Vec3.mk.injEq] at h
  obtain ⟨h1, h2, h3⟩ := h
  rcases hu with h0 | h0 | h0
  · refine ⟨v.x / u.x, ?_⟩
    ext <;> rw [Vec3.smul_def] <;> field_simp <;> linarith
  · refine ⟨v.y / u.y, ?_⟩
    ext <;> rw [Vec3.smul_def] <;> field_simp <;> linarith
  · refine ⟨v.z / u.z, ?_⟩
    ext <;> rw [Vec3.smul_def] <;> field_simp <;> linarith

theorem vec_diff_of_points (p0 d : Vec3) (a b : ℚ) :
    (p0 + b • d) - (p0 + a • d) = (b - a) • d := by
  ext <;> simp [Vec3.add_def, Vec3.sub_def, Vec3.smul_def] <;> ring

theorem vec_point_one (p0 p1 : Vec3) : p0 + (1 : ℚ) • (p1 - p0) = p1 := by
  ext <;> simp [Vec3.add_def, Vec3.sub_def, Vec3.smul_def]

theorem vec_sub_eq_iff (a b c : Vec3) : a - b = c ↔ a = b + c := by
  obtain ⟨ax, ay, az⟩ := a
  obtain ⟨bx, byy, bz⟩ := b
  obtain ⟨cx, cy, cz⟩ := c
  rw [Vec3.sub_def, Vec3.add_def, Vec3.mk.injEq, Vec3.mk.injEq]
  constructor <;> intro h <;>
    exact ⟨by linarith [h.1], by linarith [h.2.1], by linarith [h.2.2]⟩

/-- Points whose consecutive displacement cross products all vanish, with
pairwise distinct positions, all lie on the line through the first two. -/
theorem points_on_line (ps : List Vec3) (hnd : ps.Pairwise (· ≠ ·))
    (h2 : 2 ≤ ps.length)
    (hchain : ∀ (i : ℕ) (h : i + 2 < ps.length),
      cross_product
        (vector_bw_obj (ps.get ⟨i, by omega⟩) (ps.get ⟨i+1, by omega⟩))
        (vector_bw_obj (ps.get ⟨i+1, by omega⟩) (ps.get ⟨i+2, h⟩)) =
      (⟨0, 0, 0⟩ : Vec3)) :
    ∀ (i : ℕ) (h : i < ps.length), ∃ t : ℚ,
      ps.get ⟨i, h⟩ = ps.get ⟨0, by omega⟩ +
        t • (ps.get ⟨1, h2⟩ - ps.get ⟨0, by omega⟩) := by
  have hne := List.pairwise_iff_get.mp hnd
  intro i
  induction i using Nat.strong_induction_on with
  | _ i ih =>
    match i with
    | 0 =>
      intro h
      refine ⟨0, ?_⟩
      ext <;> simp [Vec3.add_def, Vec3.sub_def, Vec3.smul_def]
    | 1 =>
      intro h
      exact ⟨1, (vec_point_one _ _).symm⟩
    | (i+2) =>
      intro h
      obtain ⟨a, ha⟩ := ih i (by omega) (by omega)
      obtain ⟨b, hb⟩ := ih (i+1) (by omega) (by omega)
      set p0 := ps.get ⟨0, by omega⟩ with hp0
      set d := ps.get ⟨1, h2⟩ - p0 with hd
      have hdne : d ≠ (⟨0, 0, 0⟩ : Vec3) := by
        intro hc
        have h01 : ps.get ⟨0, by omega⟩ ≠ ps.get ⟨1, h2⟩ :=
          hne ⟨0, by omega⟩ ⟨1, h2⟩ (by simp)
        apply h01
        have : ps.get ⟨1, h2⟩ - p0 = (⟨0,0,0⟩ : Vec3) := hc
        rw [Vec3.sub_def, Vec3.mk.injEq] at this
        ext <;> simp [hp0] at this ⊢ <;> linarith [this.1, this.2.1, this.2.2]
      have hab : a ≠ b := by
        intro hc
        subst hc
        have hij : ps.get ⟨i, by omega⟩ ≠ ps.get ⟨i+1, by omega⟩ :=
          hne ⟨i, by omega⟩ ⟨i+1, by omega⟩ (by simp)
        rw [ha, hb] at hij
        exact hij rfl
      have hcross := hchain i h
      rw [vector_bw_obj_eq_sub, vector_bw_obj_eq_sub, ha, hb,
        vec_diff_of_points] at hcross
      have hu : (b - a) • d ≠ (⟨0, 0, 0⟩ : Vec3) :=
        Vec3.smul_ne_zero (by intro hc; apply hab; linarith [sub_eq_zero.mp hc]) hdne
      obtain ⟨k, hk⟩ := cross_dep hu hcross
      refine ⟨b + k * (b - a), ?_⟩
      rw [vec_sub_eq_iff] at hk
      rw [hk]
      ext <;> simp [Vec3.add_def, Vec3.smul_def, Vec3.sub_def] <;> ring

theorem Vec3.one_smul (v : Vec3) : (1 : ℚ) • v = v := by
  ext <;> simp [Vec3.smul_def]

theorem vec_add_sub_cancel (a b : Vec3) : a + (b - a) = b := by
  ext <;> simp [Vec3.add_def, Vec3.sub_def]

theorem vec_pt_diff (p0 u v : Vec3) : (p0 + u) - (p0 + v) = u - v := by
  ext <;> simp [Vec3.add_def, Vec3.sub_def]

theorem cross_id_interior (d w : Vec3) (a b : ℚ) :
    cross_product (w - a • d) (b • d - w) = (a - b) • cross_product d w := by
  ext <;> simp [cross_product, Vec3.sub_def, Vec3.smul_def] <;> ring

theorem cross_id_head (d w : Vec3) (c : ℚ) :
    cross_product (d - w) (c • d) = c • cross_product d w := by
  ext <;> simp [cross_product, Vec3.sub_def, Vec3.smul_def] <;> ring

theorem cross_id_tail (d w : Vec3) (c t : ℚ) :
    cross_product (c • d) (w - t • d) = c • cross_product d w := by
  ext <;> simp [cross_product, Vec3.sub_def, Vec3.smul_def] <;> ring

/-- Replacing the `j`-th of at least three pairwise-distinct collinear
positions by a point off their common line makes `inLinePositions` false. -/
theorem inLine_perturb (ps : List Vec3) (j : ℕ) (q : Vec3)
    (h3 : 3 ≤ ps.length) (hnd : ps.Pairwise (· ≠ ·))
    (hcol : inLinePositions ps = true) (hj : j < ps.length)
    (hoff : cross_product
        (vector_bw_obj (ps.get ⟨0, by omega⟩) (ps.get ⟨1, by omega⟩))
        (vector_bw_obj (ps.get ⟨0, by omega⟩) q) ≠ (⟨0, 0, 0⟩ : Vec3)) :
    inLinePositions (ps.set j q) = false := by
  have hb0 : 0 < ps.length := by omega
  have hb1 : 1 < ps.length := by omega
  have hb2 : 2 < ps.length := by omega
  have hne := List.pairwise_iff_get.mp hnd
  have hchain := (inLinePositions_iff ps).mp hcol
  have htfun : ∀ (i : ℕ) (h : i < ps.length), ∃ t : ℚ,
      ps.get ⟨i, h⟩ = ps.get ⟨0, hb0⟩ +
        t • (ps.get ⟨1, hb1⟩ - ps.get ⟨0, hb0⟩) :=
    points_on_line ps hnd (by omega) hchain
  have hdw : cross_product (ps.get ⟨1, hb1⟩ - ps.get ⟨0, hb0⟩)
      (q - ps.get ⟨0, hb0⟩) ≠ (⟨0, 0, 0⟩ : Vec3) := by
    rw [vector_bw_obj_eq_sub, vector_bw_obj_eq_sub] at hoff
    exact hoff
  by_contra hc
  rw [Bool.not_eq_false] at hc
  have hPchain := (inLinePositions_iff _).mp hc
  have hlset : (ps.set j q).length = ps.length := List.length_set ps j q
  by_cases hj0 : j = 0
  · -- the head is perturbed: use the first cross product
    subst hj0
    have hP := hPchain 0 (by omega)
    obtain ⟨t2, ht2⟩ := htfun 2 hb2
    have hv0 : (ps.set 0 q).get ⟨0, by omega⟩ = q := by
      simp [List.get_eq_getElem, List.getElem_set]
    have hv1 : (ps.set 0 q).get ⟨1, by omega⟩ = ps.get ⟨1, hb1⟩ := by
      simp [List.get_eq_getElem, List.getElem_set]
    have hv2 : (ps.set 0 q).get ⟨2, by omega⟩ = ps.get ⟨2, hb2⟩ := by
      simp [List.get_eq_getElem, List.getElem_set]
    rw [hv0, hv1, hv2, vector_bw_obj_eq_sub, vector_bw_obj_eq_sub] at hP
    have ht2ne : t2 ≠ 1 := by
      intro hc2
      subst hc2
      have h12 : ps.get ⟨1, hb1⟩ ≠ ps.get ⟨2, hb2⟩ :=
        hne ⟨1, hb1⟩ ⟨2, hb2⟩ (by simp)
      apply h12
      rw [ht2, Vec3.one_smul, vec_add_sub_cancel]
    have e1 : ps.get ⟨1, hb1⟩ - q =
        (ps.get ⟨1, hb1⟩ - ps.get ⟨0, hb0⟩) - (q - ps.get ⟨0, hb0⟩) := by
      ext <;> simp [Vec3.sub_def] <;> ring_nf
    have e2 : ps.get ⟨2, hb2⟩ - ps.get ⟨1, hb1⟩ =
        (t2 - 1) • (ps.get ⟨1, hb1⟩ - ps.get ⟨0, hb0⟩) := by
      rw [ht2]
      ext <;> simp [Vec3.add_def, Vec3.sub_def, Vec3.smul_def] <;> ring
    rw [e1, e2, cross_id_head] at hP
    exact Vec3.smul_ne_zero (sub_ne_zero.mpr ht2ne) hdw hP
  · by_cases hjl : j = ps.length - 1
    · -- the last point is perturbed: use the last cross product
      have hm3 : ps.length - 3 < ps.length := by omega
      have hm2 : ps.length - 2 < ps.length := by omega
      have hP := hPchain (ps.length - 3) (by omega)
      obtain ⟨ta, hta⟩ := htfun (ps.length - 3) hm3
      obtain ⟨tb, htb⟩ := htfun (ps.length - 2) hm2
      have hv0 : (ps.set j q).get ⟨ps.length - 3, by omega⟩ =
          ps.get ⟨ps.length - 3, hm3⟩ := by
        simp only [List.get_eq_getElem, List.getElem_set]
        rw [if_neg (by omega)]
      have hv1 : (ps.set j q).get ⟨ps.length - 3 + 1, by omega⟩ =
          ps.get ⟨ps.length - 2, hm2⟩ := by
        simp only [List.get_eq_getElem, List.getElem_set]
        rw [if_neg (by omega)]
        congr 1
        omega
      have hv2 : (ps.set j q).get ⟨ps.length - 3 + 2, by omega⟩ = q := by
        simp only [List.get_eq_getElem, List.getElem_set]
        rw [if_pos (by omega)]
      rw [hv0, hv1, hv2, vector_bw_obj_eq_sub, vector_bw_obj_eq_sub] at hP
      have htab : tb - ta ≠ 0 := by
        intro hc2
        have hab : ta = tb := by linarith [sub_eq_zero.mp hc2]
        subst hab
        have hij : ps.get ⟨ps.length - 3, hm3⟩ ≠ ps.get ⟨ps.length - 2, hm2⟩ :=
          hne ⟨ps.length - 3, hm3⟩ ⟨ps.length - 2, hm2⟩ (by simp; omega)
        rw [hta, htb] at hij
        exact hij rfl
      have e1 : ps.get ⟨ps.length - 2, hm2⟩ - ps.get ⟨ps.length - 3, hm3⟩ =
          (tb - ta) • (ps.get ⟨1, hb1⟩ - ps.get ⟨0, hb0⟩) := by
        rw [hta, htb]
        ext <;> simp [Vec3.add_def, Vec3.sub_def, Vec3.smul_def] <;> ring
      have e2 : q - ps.get ⟨ps.length - 2, hm2⟩ =
          (q - ps.get ⟨0, hb0⟩) -
            tb • (ps.get ⟨1, hb1⟩ - ps.get ⟨0, hb0⟩) := by
        rw [htb]
        ext <;> simp [Vec3.add_def, Vec3.sub_def, Vec3.smul_def] <;> ring
      rw [e1, e2, cross_id_tail] at hP
      exact Vec3.smul_ne_zero htab hdw hP
    · -- an interior point is perturbed: use the two vectors meeting at it
      have hm1 : j - 1 < ps.length := by omega
      have hp1b : j + 1 < ps.length := by omega
      have hP := hPchain (j - 1) (by omega)
      obtain ⟨ta, hta⟩ := htfun (j - 1) hm1
      obtain ⟨tb, htb⟩ := htfun (j + 1) hp1b
      have hv0 : (ps.set j q).get ⟨j - 1, by omega⟩ =
          ps.get ⟨j - 1, hm1⟩ := by
        simp only [List.get_eq_getElem, List.getElem_set]
        rw [if_neg (by omega)]
      have hv1 : (ps.set j q).get ⟨j - 1 + 1, by omega⟩ = q := by
        simp only [List.get_eq_getElem, List.getElem_set]
        rw [if_pos (by omega)]
      have hv2 : (ps.set j q).get ⟨j - 1 + 2, by omega⟩ =
          ps.get ⟨j + 1, hp1b⟩ := by
        simp only [List.get_eq_getElem, List.getElem_set]
        rw [if_neg (by omega)]
        congr 1
        omega
      rw [hv0, hv1, hv2, vector_bw_obj_eq_sub, vector_bw_obj_eq_sub] at hP
      have htab : ta - tb ≠ 0 := by
        intro hc2
        have hab : ta = tb := by linarith [sub_eq_zero.mp hc2]
        subst hab
        have hij : ps.get ⟨j - 1, hm1⟩ ≠ ps.get ⟨j + 1, hp1b⟩ :=
          hne ⟨j - 1, hm1⟩ ⟨j + 1, hp1b⟩ (by simp; omega)
        rw [hta, htb] at hij
        exact hij rfl
      have e1 : q - ps.get ⟨j - 1, hm1⟩ =
          (q - ps.get ⟨0, hb0⟩) -
            ta • (ps.get ⟨1, hb1⟩ - ps.get ⟨0, hb0⟩) := by
        rw [hta]
        ext <;> simp [Vec3.add_def, Vec3.sub_def, Vec3.smul_def] <;> ring
      have e2 : ps.get ⟨j + 1, hp1b⟩ - q =
          tb • (ps.get ⟨1, hb1⟩ - ps.get ⟨0, hb0⟩) -
            (q - ps.get ⟨0, hb0⟩) := by
        rw [htb]
        ext <;> simp [Vec3.add_def, Vec3.sub_def, Vec3.smul_def] <;> ring
      rw [e1, e2, cross_id_interior] at hP
      exact Vec3.smul_ne_zero htab hdw hP

/-- C8, amended: with fewer than 3 positions the collinearity check is
trivially true; when every consecutive displacement cross product vanishes
exactly the check returns true; and for 3 or more *pairwise distinct*
collinear positions, replacing any single one by a point off the line through
the first two (nonzero cross product against the line direction) makes the
check return false.  The distinctness proviso is forced by
`c8_counterexample`. -/
theorem c8_collinearity_check :
    (∀ ps : List Vec3, ps.length < 3 → inLinePositions ps = true) ∧
    (∀ ps : List Vec3,
      (∀ (i : ℕ) (h : i + 2 < ps.length),
        cross_product
          (vector_bw_obj (ps.get ⟨i, by omega⟩) (ps.get ⟨i+1, by omega⟩))
          (vector_bw_obj (ps.get ⟨i+1, by omega⟩) (ps.get ⟨i+2, h⟩)) =
        (⟨0, 0, 0⟩ : Vec3)) →
      inLinePositions ps = true) ∧
    (∀ (ps : List Vec3) (j : ℕ) (q : Vec3) (h3 : 3 ≤ ps.length),
      ps.Pairwise (· ≠ ·) → inLinePositions ps = true → j < ps.length →
      cross_product
          (vector_bw_obj (ps.get ⟨0, by omega⟩) (ps.get ⟨1, by omega⟩))
          (vector_bw_obj (ps.get ⟨0, by omega⟩) q) ≠ (⟨0, 0, 0⟩ : Vec3) →
      inLinePositions (ps.set j q) = false) := by
  refine ⟨?_, ?_, ?_⟩
  · intro ps h
    rw [inLinePositions_iff]
    intro i hi
    omega
  · intro ps h
    exact (inLinePositions_iff ps).mpr h
  · intro ps j q h3 hnd hcol hj hoff
    exact inLine_perturb ps j q h3 hnd hcol hj hoff

/-- C8, counterexample to the claim as stated: the three collinear positions
`[(0,0,0), (0,0,0), (1,0,0)]` (with a duplicated point) pass the check, the
replacement point `(0,1,0)` is off their common line — the line through the
two distinct points `(0,0,0)` and `(1,0,0)` — yet after perturbing the third
point the check still returns true, not false. -/
theorem c8_counterexample :
    inLinePositions [⟨0,0,0⟩, ⟨0,0,0⟩, ⟨1,0,0⟩] = true ∧
    cross_product (vector_bw_obj ⟨0,0,0⟩ ⟨1,0,0⟩)
      (vector_bw_obj ⟨0,0,0⟩ ⟨0,1,0⟩) ≠ (⟨0, 0, 0⟩ : Vec3) ∧
    inLinePositions ([⟨0,0,0⟩, ⟨0,0,0⟩, ⟨1,0,0⟩].set 2 ⟨0,1,0⟩) = true := by
  with_unfolding_all decide

/-- C8 witness: the amended perturbation statement applied to the concrete
collinear distinct points `(0,0,0), (1,0,0), (2,0,0)` with the middle point
moved off the line. -/
theorem c8_collinearity_check_witness :
    inLinePositions ([⟨0,0,0⟩, ⟨1,0,0⟩, ⟨2,0,0⟩].set 1 ⟨1,1,0⟩) = false :=
  c8_collinearity_check.2.2 [⟨0,0,0⟩, ⟨1,0,0⟩, ⟨2,0,0⟩] 1 ⟨1,1,0⟩
    (by decide) (by decide) (by with_unfolding_all decide) (by decide)
    (by with_unfolding_all decide)

/-! ### Facts about the stable key sort -/

theorem sortByKey_perm {α β : Type} [LinearOrder β] (k : α → β) (l : List α) :
    List.Perm (sortByKey k l) l :=
  List.perm_insertionSort _ l

theorem sortByKey_length {α β : Type} [LinearOrder β] (k : α → β) (l : List α) :
    (sortByKey k l).length = l.length :=
  (sortByKey_perm k l).length_eq

theorem sortByKey_sorted {α β : Type} [LinearOrder β] (k : α → β) (l : List α) :
    (sortByKey k l).Pairwise (keyLE k) :=
  List.sorted_insertionSort (keyLE k) l

theorem sortByKey_of_sorted {α β : Type} [LinearOrder β] {k : α → β}
    {l : List α} (h : l.Pairwise (keyLE k)) : sortByKey k l = l :=
  List.Sorted.insertionSort_eq h

theorem sortByKey_eq_of_strict {α β : Type} [LinearOrder β] {k : α → β}
    {l r : List α} (hperm : List.Perm l r)
    (hstrict : r.Pairwise (fun a b => k a < k b)) : sortByKey k l = r := by
  have h1 : List.Perm (sortByKey k l) r := (sortByKey_perm k l).trans hperm
  have hs1 : (sortByKey k l).Pairwise (keyLE k) := sortByKey_sorted k l
  have hrnd : r.Nodup := hstrict.imp fun h => by
    intro hc
    subst hc
    exact lt_irrefl _ h
  have hnd : (sortByKey k l).Nodup := (h1.nodup_iff).mpr hrnd
  have hinj : ∀ a ∈ r, ∀ b ∈ r, a ≠ b → k a ≠ k b := by
    intro a ha b hb hab
    obtain ⟨⟨i, hi⟩, rfl⟩ := List.mem_iff_get.mp ha
    obtain ⟨⟨i2, hi2⟩, rfl⟩ := List.mem_iff_get.mp hb
    have hgl := List.pairwise_iff_get.mp hstrict
    rcases lt_trichotomy i i2 with h | h | h
    · exact ne_of_lt (hgl ⟨i, hi⟩ ⟨i2, hi2⟩ h)
    · exact absurd (by cases h; rfl) hab
    · exact (ne_of_lt (hgl ⟨i2, hi2⟩ ⟨i, hi⟩ h)).symm
  have hstrict2 : (sortByKey k l).Pairwise (fun a b => k a < k b) := by
    refine List.Pairwise.imp_of_mem ?_ (hs1.and hnd)
    intro a b ha hb hab
    exact lt_of_le_of_ne hab.1 (hinj a (h1.subset ha) b (h1.subset hb) hab.2)
  letI : IsAntisymm α (fun a b => k a < k b) :=
    ⟨fun _ _ h1 h2 => absurd h2 (not_lt.mpr (le_of_lt h1))⟩
  exact List.eq_of_perm_of_sorted h1 hstrict2 hstrict

theorem sorted_key_le_getLast {α β : Type} [LinearOrder β] {k : α → β}
    {l : List α} (hs : l.Pairwise (keyLE k)) (hne : l ≠ []) :
    ∀ x ∈ l, k x ≤ k (l.getLast hne) := by
  intro x hx
  obtain ⟨⟨i, hi⟩, rfl⟩ := List.mem_iff_get.mp hx
  rw [List.getLast_eq_getElem]
  by_cases hil : i = l.length - 1
  · subst hil
    exact le_of_eq rfl
  · have := List.pairwise_iff_get.mp hs ⟨i, hi⟩ ⟨l.length - 1, by omega⟩
      (by simp only [Fin.mk_lt_mk]; omega)
    exact this

/-! ### Facts about `applyPlan` and the fix plan -/

theorem applyPlan_cons (sc : Scene) (p : String × Vec3)
    (rest : List (String × Vec3)) :
    applyPlan sc (p :: rest) =
      applyPlan ⟨fun o => if o = p.1 then p.2 else sc.pos o, sc.faces⟩ rest := rfl

theorem applyPlan_faces (plan : List (String × Vec3)) (sc : Scene) :
    (applyPlan sc plan).faces = sc.faces := by
  induction plan generalizing sc with
  | nil => rfl
  | cons p rest ih => rw [applyPlan_cons, ih]

theorem applyPlan_pos_not_mem (plan : List (String × Vec3)) (sc : Scene)
    (o : String) (h : o ∉ plan.map Prod.fst) :
    (applyPlan sc plan).pos o = sc.pos o := by
  induction plan generalizing sc with
  | nil => rfl
  | cons p rest ih =>
    rw [applyPlan_cons, ih _ (fun hc => h (by simp [hc]))]
    have hne : o ≠ p.1 := fun hc => h (by simp [hc])
    simp [hne]

theorem applyPlan_pos_mem (plan : List (String × Vec3)) (sc : Scene)
    (o : String) (v : Vec3) (hnd : (plan.map Prod.fst).Nodup)
    (hmem : (o, v) ∈ plan) : (applyPlan sc plan).pos o = v := by
  induction plan generalizing sc with
  | nil => cases hmem
  | cons p rest ih =>
    rw [applyPlan_cons]
    rcases List.mem_cons.mp hmem with heq | hrest
    · have hok : o ∉ rest.map Prod.fst := by
        rw [List.map_cons] at hnd
        have := (List.nodup_cons.mp hnd).1
        rw [← heq] at this
        exact this
      rw [applyPlan_pos_not_mem _ _ _ hok, ← heq]
      simp
    · have : (rest.map Prod.fst).Nodup := by
        rw [List.map_cons] at hnd
        exact (List.nodup_cons.mp hnd).2
      exact ih _ this hrest

/-- The list of writes `fix_arrangement` produces once the spacing `s` is
known: position `(s * (i+1), 0, 0)` for the i-th (0-indexed) object of the
new order. -/
def canonical_plan (sc : Scene) (l : List String) (s : ℚ) :
    List (String × Vec3) :=
  (new_order_for_fixed_arrangement sc l).enum.map
    fun p => (p.2, ⟨s * ((p.1 : ℚ) + 1), 0, 0⟩)

theorem canonical_plan_length (sc : Scene) (l : List String) (s : ℚ) :
    (canonical_plan sc l s).length =
      (new_order_for_fixed_arrangement sc l).length := by
  simp only [canonical_plan, List.length_map, List.enum_length]

theorem canonical_plan_get (sc : Scene) (l : List String) (s : ℚ) (i : ℕ)
    (h : i < (canonical_plan sc l s).length) :
    (canonical_plan sc l s).get ⟨i, h⟩ =
      ((new_order_for_fixed_arrangement sc l).get
          ⟨i, by rw [canonical_plan_length] at h; exact h⟩,
        ⟨s * ((i : ℚ) + 1), 0, 0⟩) := by
  simp only [canonical_plan, List.get_eq_getElem, List.getElem_map]
  have hi : i < (new_order_for_fixed_arrangement sc l).enum.length := by
    simp only [canonical_plan, List.length_map] at h
    exact h
  rw [show ((new_order_for_fixed_arrangement sc l).enum[i] : ℕ × String) =
      (new_order_for_fixed_arrangement sc l).enum.get ⟨i, hi⟩ from rfl,
    List.get_enum]
  rfl

theorem canonical_plan_keys (sc : Scene) (l : List String) (s : ℚ) :
    (canonical_plan sc l s).map Prod.fst =
      new_order_for_fixed_arrangement sc l := by
  apply List.ext_getElem
  · rw [List.length_map, canonical_plan_length]
  · intro i h1 h2
    rw [List.getElem_map]
    have h3 : i < (canonical_plan sc l s).length := by
      rw [List.length_map] at h1
      exact h1
    rw [show ((canonical_plan sc l s)[i] : String × Vec3) =
        (canonical_plan sc l s).get ⟨i, h3⟩ from rfl,
      canonical_plan_get]
    rfl

theorem canonical_plan_mem (sc : Scene) (l : List String) (s : ℚ) (i : ℕ)
    (h : i < (new_order_for_fixed_arrangement sc l).length) :
    ((new_order_for_fixed_arrangement sc l).get ⟨i, h⟩,
      (⟨s * ((i : ℚ) + 1), 0, 0⟩ : Vec3)) ∈ canonical_plan sc l s := by
  have h2 : i < (canonical_plan sc l s).length := by
    rw [canonical_plan_length]
    exact h
  rw [show ((new_order_for_fixed_arrangement sc l).get ⟨i, h⟩,
      (⟨s * ((i : ℚ) + 1), 0, 0⟩ : Vec3)) =
      (canonical_plan sc l s).get ⟨i, h2⟩ from (canonical_plan_get sc l s i h2).symm]
  exact List.get_mem _ i h2

/-- Characterization of a successful `fix_arrangement` run: the furthest
sphere exists, its distance is maximal among spheres, and the emitted plan is
the canonical plan with spacing `D / n`. -/
theorem fix_arrangement_eq (sc : Scene) (l : List String)
    (hex : ∃ o ∈ l, strContains o "pSphere" = true) :
    ∃ f : String, f ∈ l.filter (fun o => strContains o "pSphere") ∧
      furthest_sphere sc l = some f ∧
      distance_for_furthestsphere sc l = .ok (distance_from_center sc f) ∧
      (∀ x ∈ l.filter (fun o => strContains o "pSphere"),
        distance_from_center sc x ≤ distance_from_center sc f) ∧
      0 < no_of_spheres l ∧
      fix_arrangement sc l = .ok (canonical_plan sc l
        (distance_from_center sc f / (no_of_spheres l : ℚ))) := by
  obtain ⟨o, ho, hos⟩ := hex
  have hmem : o ∈ l.filter (fun o => strContains o "pSphere") :=
    List.mem_filter.mpr ⟨ho, hos⟩
  have hssne : sortByKey (distance_from_center sc)
      (l.filter fun o => strContains o "pSphere") ≠ [] := by
    intro hc
    have := sortByKey_length (distance_from_center sc)
      (l.filter fun o => strContains o "pSphere")
    rw [hc] at this
    have hpos := List.length_pos.mpr (List.ne_nil_of_mem hmem)
    simp at this
    omega
  refine ⟨(sortByKey (distance_from_center sc)
      (l.filter fun o => strContains o "pSphere")).getLast hssne, ?_, ?_, ?_, ?_, ?_, ?_⟩
  · exact (sortByKey_perm _ _).subset (List.getLast_mem hssne)
  · rw [furthest_sphere]
    exact List.getLast?_eq_getLast _ hssne
  · rw [distance_for_furthestsphere, furthest_sphere,
      List.getLast?_eq_getLast _ hssne]
  · intro x hx
    exact sorted_key_le_getLast (sortByKey_sorted _ _) hssne x
      ((sortByKey_perm _ _).mem_iff.mpr hx)
  · rw [no_of_spheres]
    exact List.length_pos.mpr (List.ne_nil_of_mem hmem)
  · have hn : no_of_spheres l ≠ 0 := by
      rw [no_of_spheres]
      have := List.length_pos.mpr (List.ne_nil_of_mem hmem)
      omega
    rw [fix_arrangement]
    show Except.bind (distance_for_furthestsphere sc l) _ = _
    rw [distance_for_furthestsphere, furthest_sphere,
      List.getLast?_eq_getLast _ hssne]
    show (if no_of_spheres l = 0 then _ else _) = _
    rw [if_neg hn]
    rfl

/-! ### C1: the correction plan matches the spec's description -/

/-- Written from the spec's words (§4.4): the canonical order is all spheres
first, sorted ascending by current distance-from-origin, then all non-sphere
objects sorted ascending by face count; `D` is the furthest sphere's distance
(the maximum of the spheres' distances), `n` the number of spheres,
`s = D / n`, and the i-th object (1-indexed) is assigned `(s * i, 0, 0)`. -/
def spec_fix_plan (sc : Scene) (l : List String) : List (String × Vec3) :=
  let spheres := l.filter fun o => strContains o "Sphere"
  let dmax := ((spheres.map (distance_from_center sc)).max?).getD 0
  let s := dmax / (spheres.length : ℚ)
  let order := sortByKey (distance_from_center sc) spheres ++
    sortByKey sc.faces (l.filter fun o => !strContains o "Sphere")
  order.enum.map fun p => (p.2, ⟨s * ((p.1 : ℚ) + 1), 0, 0⟩)

/-- C1: on any ArrangementSet with at least one sphere — an object list whose
sphere classification is coherent (`"Sphere"` in the name exactly when
`"pSphere"` is, the data model's disjoint-kinds naming invariant) —
`fix_arrangement` emits exactly the plan described by the spec: canonical
order (spheres by distance, then solids by face count) with the i-th object
(1-indexed) at `(s * i, 0, 0)`, `s = D / n`. -/
theorem c1_fix_matches_spec (sc : Scene) (l : List String)
    (hex : ∃ o ∈ l, strContains o "pSphere" = true)
    (hwf : ∀ o ∈ l, strContains o "Sphere" = strContains o "pSphere") :
    fix_arrangement sc l = .ok (spec_fix_plan sc l) := by
  obtain ⟨f, hfmem, hfs, hdfs, hmax, hn, hfix⟩ := fix_arrangement_eq sc l hex
  rw [hfix]
  have hfc : (l.filter fun o => strContains o "Sphere") =
      (l.filter fun o => strContains o "pSphere") :=
    List.filter_congr fun o ho => hwf o ho
  letI : Std.Antisymm ((· : ℚ) ≤ ·) := ⟨fun h1 h2 => le_antisymm h1 h2⟩
  have hmaxq : ((l.filter fun o => strContains o "pSphere").map
      (distance_from_center sc)).max? = some (distance_from_center sc f) := by
    refine (List.max?_eq_some_iff (fun a : ℚ => le_refl a)
      (fun a b => max_choice a b) (fun a b c => max_le_iff)).mpr ⟨?_, ?_⟩
    · exact List.mem_map_of_mem _ hfmem
    · intro b hb
      obtain ⟨x, hx, rfl⟩ := List.mem_map.mp hb
      exact hmax x hx
  simp only [spec_fix_plan, canonical_plan, new_order_for_fixed_arrangement,
    hfc, hmaxq, Option.getD_some, no_of_spheres]

/-- Scene for the C1/C5/C9 concrete inputs: `pSphere1` at `(2,0,0)`,
`Sphere1` at `(1,0,0)`, everything else at `(3,0,0)`; 4 faces each. -/
def cScene : Scene :=
  ⟨fun o => if o = "pSphere1" then ⟨2, 0, 0⟩
    else if o = "Sphere1" then ⟨1, 0, 0⟩ else ⟨3, 0, 0⟩,
   fun _ => 4⟩

/-- C1 witness: the spec plan is produced on a concrete two-object set. -/
theorem c1_fix_matches_spec_witness :
    fix_arrangement cScene ["pSphere1", "pSolid1"] =
      .ok (spec_fix_plan cScene ["pSphere1", "pSolid1"]) :=
  c1_fix_matches_spec cScene ["pSphere1", "pSolid1"] (by decide) (by decide)

/-! ### C5: the furthest sphere's corrected position -/

/-- C5: after `fix_arrangement`, the furthest sphere `f` occupies some rank
`i+1` in the canonical order and is assigned exactly `(s * (i+1), 0, 0)` with
`s = D / n`; and this corrected distance is not in general `D`: on the
concrete set `[Sphere1 at distance 1, pSphere1 at distance 2]` the furthest
sphere `pSphere1` (with `D = 2`) ends up at distance 4. -/
theorem c5_furthest_position :
    (∀ (sc : Scene) (l : List String),
      (∃ o ∈ l, strContains o "pSphere" = true) →
      ∃ (f : String) (D : ℚ) (i : ℕ)
        (h : i < (new_order_for_fixed_arrangement sc l).length),
        furthest_sphere sc l = some f ∧
        distance_for_furthestsphere sc l = .ok D ∧
        (new_order_for_fixed_arrangement sc l).get ⟨i, h⟩ = f ∧
        fix_arrangement sc l = .ok (canonical_plan sc l (D / (no_of_spheres l : ℚ))) ∧
        (canonical_plan sc l (D / (no_of_spheres l : ℚ)))[i]? =
          some (f, ⟨D / (no_of_spheres l : ℚ) * ((i : ℚ) + 1), 0, 0⟩)) ∧
    (furthest_sphere cScene ["Sphere1", "pSphere1"] = some "pSphere1" ∧
     distance_for_furthestsphere cScene ["Sphere1", "pSphere1"] = .ok 2 ∧
     fix_arrangement cScene ["Sphere1", "pSphere1"] =
       .ok [("Sphere1", ⟨2, 0, 0⟩), ("pSphere1", ⟨4, 0, 0⟩)] ∧
     distance_from_center
       (applyPlan cScene [("Sphere1", ⟨2, 0, 0⟩), ("pSphere1", ⟨4, 0, 0⟩)])
       "pSphere1" = 4 ∧
     (4 : ℚ) ≠ 2) := by
  constructor
  · intro sc l hex
    obtain ⟨f, hfmem, hfs, hdfs, hmax, hn, hfix⟩ := fix_arrangement_eq sc l hex
    have hford : f ∈ new_order_for_fixed_arrangement sc l := by
      rw [new_order_for_fixed_arrangement]
      apply List.mem_append_left
      apply (sortByKey_perm _ _).mem_iff.mpr
      obtain ⟨hfl, hfps⟩ := List.mem_filter.mp hfmem
      exact List.mem_filter.mpr ⟨hfl, sphere_of_pSphere hfps⟩
    obtain ⟨⟨i, hi⟩, hgeti⟩ := List.mem_iff_get.mp hford
    refine ⟨f, distance_from_center sc f, i, hi, hfs, hdfs, hgeti, hfix, ?_⟩
    have hip : i < (canonical_plan sc l
        (distance_from_center sc f / (no_of_spheres l : ℚ))).length := by
      rw [canonical_plan_length]
      exact hi
    rw [List.getElem?_eq_getElem hip,
      show ((canonical_plan sc l _)[i] : String × Vec3) =
        (canonical_plan sc l _).get ⟨i, hip⟩ from rfl,
      canonical_plan_get, hgeti]
  · refine ⟨?_, ?_, ?_, ?_, by norm_num⟩ <;> with_unfolding_all decide

/-- C5 witness: the universal part applied at the concrete two-sphere set. -/
theorem c5_furthest_position_witness :
    ∃ (f : String) (D : ℚ) (i : ℕ)
      (h : i < (new_order_for_fixed_arrangement cScene
        ["Sphere1", "pSphere1"]).length),
      furthest_sphere cScene ["Sphere1", "pSphere1"] = some f ∧
      distance_for_furthestsphere cScene ["Sphere1", "pSphere1"] = .ok D ∧
      (new_order_for_fixed_arrangement cScene
        ["Sphere1", "pSphere1"]).get ⟨i, h⟩ = f ∧
      fix_arrangement cScene ["Sphere1", "pSphere1"] =
        .ok (canonical_plan cScene ["Sphere1", "pSphere1"]
          (D / (no_of_spheres ["Sphere1", "pSphere1"] : ℚ))) ∧
      (canonical_plan cScene ["Sphere1", "pSphere1"]
        (D / (no_of_spheres ["Sphere1", "pSphere1"] : ℚ)))[i]? =
        some (f, ⟨D / (no_of_spheres ["Sphere1", "pSphere1"] : ℚ) *
          ((i : ℚ) + 1), 0, 0⟩) :=
  c5_furthest_position.1 cScene ["Sphere1", "pSphere1"] (by decide)

/-! ### Geometry of the corrected arrangement -/

theorem distance_nonneg (sc : Scene) (o : String) :
    0 ≤ distance_from_center sc o :=
  ratSqrt_nonneg _

theorem distance_bw_xaxis (a : ℚ) (h : 0 ≤ a) :
    distance_bw_points ⟨0, 0, 0⟩ ⟨a, 0, 0⟩ = a := by
  show ratSqrt (((0:ℚ) - a)^2 + ((0:ℚ) - 0)^2 + ((0:ℚ) - 0)^2) = a
  rw [show ((0:ℚ) - a)^2 + ((0:ℚ) - 0)^2 + ((0:ℚ) - 0)^2 = a * a from by ring]
  exact ratSqrt_sq_nonneg a h

theorem magnitude_xaxis (a : ℚ) (h : 0 ≤ a) :
    magnitude ⟨a, 0, 0⟩ = a := by
  show ratSqrt (a^2 + (0:ℚ)^2 + (0:ℚ)^2) = a
  rw [show a^2 + (0:ℚ)^2 + (0:ℚ)^2 = a * a from by ring]
  exact ratSqrt_sq_nonneg a h

theorem order_nodup (sc : Scene) (l : List String) (hnd : l.Nodup) :
    (new_order_for_fixed_arrangement sc l).Nodup := by
  rw [new_order_for_fixed_arrangement]
  apply List.Nodup.append
  · exact ((sortByKey_perm _ _).nodup_iff).mpr (hnd.filter _)
  · exact ((sortByKey_perm _ _).nodup_iff).mpr (hnd.filter _)
  · intro a ha hb
    have h1 := List.mem_filter.mp ((sortByKey_perm _ _).subset ha)
    have h2 := List.mem_filter.mp ((sortByKey_perm _ _).subset hb)
    rw [h1.2] at h2
    simp at h2

theorem order_perm (sc : Scene) (l : List String) :
    List.Perm (new_order_for_fixed_arrangement sc l) l := by
  rw [new_order_for_fixed_arrangement]
  exact ((sortByKey_perm _ _).append (sortByKey_perm _ _)).trans
    (List.filter_append_perm _ l)

theorem pos_after_plan (sc : Scene) (l : List String) (s : ℚ) (hnd : l.Nodup)
    (i : ℕ) (h : i < (new_order_for_fixed_arrangement sc l).length) :
    (applyPlan sc (canonical_plan sc l s)).pos
      ((new_order_for_fixed_arrangement sc l).get ⟨i, h⟩) =
    ⟨s * ((i : ℚ) + 1), 0, 0⟩ :=
  applyPlan_pos_mem _ _ _ _
    (by rw [canonical_plan_keys]; exact order_nodup sc l hnd)
    (canonical_plan_mem sc l s i h)

theorem dist_after_plan (sc : Scene) (l : List String) (s : ℚ) (hs : 0 ≤ s)
    (hnd : l.Nodup) (i : ℕ)
    (h : i < (new_order_for_fixed_arrangement sc l).length) :
    distance_from_center (applyPlan sc (canonical_plan sc l s))
      ((new_order_for_fixed_arrangement sc l).get ⟨i, h⟩) =
    s * ((i : ℚ) + 1) := by
  rw [distance_from_center, pos_after_plan sc l s hnd i h]
  exact distance_bw_xaxis _ (mul_nonneg hs (by positivity))

theorem magnitude_after_plan (sc : Scene) (l : List String) (s : ℚ)
    (hs : 0 ≤ s) (hnd : l.Nodup) (i : ℕ)
    (h : i < (new_order_for_fixed_arrangement sc l).length) :
    magnitude ((applyPlan sc (canonical_plan sc l s)).pos
      ((new_order_for_fixed_arrangement sc l).get ⟨i, h⟩)) =
    s * ((i : ℚ) + 1) := by
  rw [pos_after_plan sc l s hnd i h]
  exact magnitude_xaxis _ (mul_nonneg hs (by positivity))

/-- After applying the canonical plan, re-sorting the spheres by their new
distance from the origin reproduces the sphere block of the canonical order:
for positive spacing the new distances are strictly increasing along it, and
for zero spacing everything is at the origin and stability applies. -/
theorem sort2_spheres_eq (sc : Scene) (l : List String) (s : ℚ) (hs : 0 ≤ s)
    (hnd : l.Nodup)
    (hwf : ∀ o ∈ l, strContains o "Sphere" = strContains o "pSphere")
    (hzero : s = 0 → ∀ x ∈ l.filter (fun o => strContains o "pSphere"),
      distance_from_center sc x = 0) :
    sortByKey (distance_from_center (applyPlan sc (canonical_plan sc l s)))
      (l.filter fun o => strContains o "pSphere") =
    sortByKey (distance_from_center sc)
      (l.filter fun o => strContains o "pSphere") := by
  have hfc : (l.filter fun o => strContains o "Sphere") =
      (l.filter fun o => strContains o "pSphere") :=
    List.filter_congr fun o ho => hwf o ho
  have horder : new_order_for_fixed_arrangement sc l =
      sortByKey (distance_from_center sc)
        (l.filter fun o => strContains o "pSphere") ++
      sortByKey sc.faces (l.filter fun o => !strContains o "Sphere") := by
    rw [new_order_for_fixed_arrangement, hfc]
  rcases hs.lt_or_eq with hpos | hzeq
  · -- positive spacing: new distances are strictly increasing along the block
    apply sortByKey_eq_of_strict (sortByKey_perm _ _).symm
    rw [List.pairwise_iff_get]
    intro i j hij
    have hleni : (i : ℕ) <
        (new_order_for_fixed_arrangement sc l).length := by
      rw [horder, List.length_append]
      omega
    have hlenj : (j : ℕ) <
        (new_order_for_fixed_arrangement sc l).length := by
      rw [horder, List.length_append]
      omega
    have hgi : (sortByKey (distance_from_center sc)
        (l.filter fun o => strContains o "pSphere")).get i =
        (new_order_for_fixed_arrangement sc l).get ⟨i, hleni⟩ := by
      rw [List.get_eq_getElem, List.get_eq_getElem]
      simp only [horder]
      rw [List.getElem_append_left]
    have hgj : (sortByKey (distance_from_center sc)
        (l.filter fun o => strContains o "pSphere")).get j =
        (new_order_for_fixed_arrangement sc l).get ⟨j, hlenj⟩ := by
      rw [List.get_eq_getElem, List.get_eq_getElem]
      simp only [horder]
      rw [List.getElem_append_left]
    rw [hgi, hgj, dist_after_plan sc l s hs hnd i hleni,
      dist_after_plan sc l s hs hnd j hlenj]
    have hijn : (i : ℕ) < (j : ℕ) := hij
    have hcast : ((i : ℕ) : ℚ) + 1 < ((j : ℕ) : ℚ) + 1 := by
      exact_mod_cast Nat.succ_lt_succ hijn
    exact mul_lt_mul_of_pos_left hcast hpos
  · -- zero spacing: all old and all new distances vanish, stability applies
    have hz := hzero hzeq.symm
    have hss : sortByKey (distance_from_center sc)
        (l.filter fun o => strContains o "pSphere") =
        l.filter fun o => strContains o "pSphere" := by
      apply sortByKey_of_sorted
      apply List.pairwise_of_forall_mem_list
      intro a ha b hb
      show distance_from_center sc a ≤ distance_from_center sc b
      rw [hz a ha, hz b hb]
    rw [hss]
    apply sortByKey_of_sorted
    apply List.pairwise_of_forall_mem_list
    intro a ha b hb
    have hval : ∀ x ∈ l.filter (fun o => strContains o "pSphere"),
        distance_from_center
          (applyPlan sc (canonical_plan sc l s)) x = 0 := by
      intro x hx
      have hxl : x ∈ l := (List.mem_filter.mp hx).1
      have hxo : x ∈ new_order_for_fixed_arrangement sc l :=
        (order_perm sc l).mem_iff.mpr hxl
      obtain ⟨⟨i, hi⟩, hgi⟩ := List.mem_iff_get.mp hxo
      rw [← hgi, dist_after_plan sc l s hs hnd i hi, ← hzeq]
      ring
    show distance_from_center _ a ≤ distance_from_center _ b
    rw [hval a ha, hval b hb]

/-! ### C9: idempotence of the correction -/

theorem canonical_plan_congr (sc1 sc2 : Scene) (l : List String) (s : ℚ)
    (h : new_order_for_fixed_arrangement sc1 l =
      new_order_for_fixed_arrangement sc2 l) :
    canonical_plan sc1 l s = canonical_plan sc2 l s := by
  simp only [canonical_plan, h]

/-- C9: on an ArrangementSet (deduplicated list with coherent sphere naming)
with at least one sphere, re-running `fix_arrangement` on its own output
yields the same canonical order, the same furthest-sphere distance (hence
the same spacing), and exactly the same plan — every object is assigned the
same position again. -/
theorem c9_fix_idempotent (sc : Scene) (l : List String)
    (hex : ∃ o ∈ l, strContains o "pSphere" = true)
    (hwf : ∀ o ∈ l, strContains o "Sphere" = strContains o "pSphere")
    (hnd : l.Nodup) :
    ∃ plan, fix_arrangement sc l = .ok plan ∧
      fix_arrangement (applyPlan sc plan) l = .ok plan ∧
      new_order_for_fixed_arrangement (applyPlan sc plan) l =
        new_order_for_fixed_arrangement sc l ∧
      distance_for_furthestsphere (applyPlan sc plan) l =
        distance_for_furthestsphere sc l := by
  obtain ⟨f, hfmem, hfs, hdfs, hmax, hn, hfix⟩ := fix_arrangement_eq sc l hex
  have hncast : ((no_of_spheres l : ℚ)) ≠ 0 := by
    exact_mod_cast Nat.pos_iff_ne_zero.mp hn
  have hs : 0 ≤ distance_from_center sc f / (no_of_spheres l : ℚ) :=
    div_nonneg (distance_nonneg sc f) (by positivity)
  have hzero : distance_from_center sc f / (no_of_spheres l : ℚ) = 0 →
      ∀ x ∈ l.filter (fun o => strContains o "pSphere"),
        distance_from_center sc x = 0 := by
    intro h0 x hx
    have hD0 : distance_from_center sc f = 0 := by
      rcases div_eq_zero_iff.mp h0 with h | h
      · exact h
      · exact absurd h hncast
    have h1 := hmax x hx
    have h2 := distance_nonneg sc x
    rw [hD0] at h1
    linarith
  have hsort2 := sort2_spheres_eq sc l
    (distance_from_center sc f / (no_of_spheres l : ℚ)) hs hnd hwf hzero
  have hfc : (l.filter fun o => strContains o "Sphere") =
      (l.filter fun o => strContains o "pSphere") :=
    List.filter_congr fun o ho => hwf o ho
  have horder2 : new_order_for_fixed_arrangement
      (applyPlan sc (canonical_plan sc l
        (distance_from_center sc f / (no_of_spheres l : ℚ)))) l =
      new_order_for_fixed_arrangement sc l := by
    rw [new_order_for_fixed_arrangement, new_order_for_fixed_arrangement]
    rw [applyPlan_faces]
    congr 1
    rw [hfc]
    exact hsort2
  -- the furthest sphere of the corrected scene is the same object
  have hssne : sortByKey (distance_from_center sc)
      (l.filter fun o => strContains o "pSphere") ≠ [] := by
    intro hc
    have h1 := sortByKey_length (distance_from_center sc)
      (l.filter fun o => strContains o "pSphere")
    rw [hc] at h1
    have h2 := List.length_pos.mpr (List.ne_nil_of_mem hfmem)
    simp at h1
    omega
  have hfse : furthest_sphere
      (applyPlan sc (canonical_plan sc l
        (distance_from_center sc f / (no_of_spheres l : ℚ)))) l = some f := by
    rw [furthest_sphere, hsort2]
    exact hfs
  have hfget : f = (sortByKey (distance_from_center sc)
      (l.filter fun o => strContains o "pSphere")).getLast hssne := by
    rw [furthest_sphere, List.getLast?_eq_getLast _ hssne] at hfs
    exact (Option.some_inj.mp hfs).symm
  have hsslen : (sortByKey (distance_from_center sc)
      (l.filter fun o => strContains o "pSphere")).length = no_of_spheres l :=
    sortByKey_length _ _
  have hfi : (no_of_spheres l) - 1 <
      (new_order_for_fixed_arrangement sc l).length := by
    rw [new_order_for_fixed_arrangement, List.length_append, hfc,
      sortByKey_length]
    show no_of_spheres l - 1 < no_of_spheres l + _
    omega
  have horderf : (new_order_for_fixed_arrangement sc l).get
      ⟨no_of_spheres l - 1, hfi⟩ = f := by
    rw [hfget, List.getLast_eq_getElem]
    rw [List.get_eq_getElem]
    simp only [new_order_for_fixed_arrangement, hfc]
    rw [List.getElem_append_left]
    · simp only [hsslen]
    · rw [hsslen]
      omega
  have hd2f : distance_from_center
      (applyPlan sc (canonical_plan sc l
        (distance_from_center sc f / (no_of_spheres l : ℚ)))) f =
      distance_from_center sc f := by
    have hgen := dist_after_plan sc l
      (distance_from_center sc f / (no_of_spheres l : ℚ)) hs hnd
      (no_of_spheres l - 1) hfi
    rw [horderf] at hgen
    rw [hgen]
    have hcast : (((no_of_spheres l - 1 : ℕ)) : ℚ) + 1 =
        (no_of_spheres l : ℚ) := by
      rw [Nat.cast_sub (by omega)]
      push_cast
      ring
    rw [hcast, div_mul_cancel₀ _ hncast]
  obtain ⟨f2, hfmem2, hfs2, hdfs2, hmax2, hn2, hfix2⟩ :=
    fix_arrangement_eq (applyPlan sc (canonical_plan sc l
      (distance_from_center sc f / (no_of_spheres l : ℚ)))) l hex
  have hf2 : f2 = f := by
    rw [hfse] at hfs2
    exact Option.some_inj.mp hfs2.symm
  subst hf2
  refine ⟨_, hfix, ?_, horder2, ?_⟩
  · rw [hfix2]
    congr 1
    rw [hd2f]
    exact canonical_plan_congr _ _ _ _ horder2
  · rw [hdfs2, hdfs, hd2f]

/-- C9 witness: idempotence at a concrete two-object set. -/
theorem c9_fix_idempotent_witness :
    ∃ plan, fix_arrangement cScene ["pSphere1", "pSolid1"] = .ok plan ∧
      fix_arrangement (applyPlan cScene plan) ["pSphere1", "pSolid1"] =
        .ok plan ∧
      new_order_for_fixed_arrangement (applyPlan cScene plan)
        ["pSphere1", "pSolid1"] =
        new_order_for_fixed_arrangement cScene ["pSphere1", "pSolid1"] ∧
      distance_for_furthestsphere (applyPlan cScene plan)
        ["pSphere1", "pSolid1"] =
        distance_for_furthestsphere cScene ["pSphere1", "pSolid1"] :=
  c9_fix_idempotent cScene ["pSphere1", "pSolid1"] (by decide) (by decide)
    (by decide)

/-! ### C10: the corrected arrangement passes the four predicates -/

theorem cross_xaxis (a b c : ℚ) :
    cross_product (vector_bw_obj ⟨a, 0, 0⟩ ⟨b, 0, 0⟩)
      (vector_bw_obj ⟨b, 0, 0⟩ ⟨c, 0, 0⟩) = (⟨0, 0, 0⟩ : Vec3) := by
  ext <;> simp [cross_product, vector_bw_obj]

theorem pSolid_of_push (o : String) (c : Char)
    (h : strContains o ("pSolid".push c) = true) :
    strContains o "pSolid" = true := by
  refine strContains_trans ?_ h
  simp only [strContains, decide_eq_true_eq]
  show "pSolid".toList <:+: ("pSolid".push c).toList
  refine ⟨[], [c], ?_⟩
  simp [String.toList, String.data_push]

/-- A scene in which every position list of the form
`s*1, s*2, ...` along the sorted object list makes the equal-spacing
predicate succeed. -/
theorem if_equally_spaced_arith (sc : Scene) (ol : List String) (s : ℚ)
    (hs : 0 ≤ s) (h2 : 2 ≤ ol.length)
    (hfa : ∀ (i : ℕ) (h : i < ol.length),
      magnitude (sc.pos (ol.get ⟨i, h⟩)) = s * ((i : ℚ) + 1)) :
    if_equally_spaced sc ol = .ok true := by
  have hMlen : (ol.map fun o => magnitude (sc.pos o)).length = ol.length :=
    List.length_map _ _
  have hM : ∀ (i : ℕ) (h : i < ol.length),
      (ol.map fun o => magnitude (sc.pos o)).get ⟨i, by omega⟩ =
        s * ((i : ℚ) + 1) := by
    intro i h
    rw [List.get_eq_getElem, List.getElem_map]
    exact hfa i h
  have hMs : (ol.map fun o => magnitude (sc.pos o)).Pairwise (keyLE id) := by
    rw [List.pairwise_iff_get]
    intro i j hij
    have hi : (i : ℕ) < ol.length := by
      have := i.isLt
      omega
    have hj : (j : ℕ) < ol.length := by
      have := j.isLt
      omega
    show id _ ≤ id _
    rw [show ((ol.map fun o => magnitude (sc.pos o)).get i) =
        (ol.map fun o => magnitude (sc.pos o)).get ⟨i, by omega⟩ from rfl,
      show ((ol.map fun o => magnitude (sc.pos o)).get j) =
        (ol.map fun o => magnitude (sc.pos o)).get ⟨j, by omega⟩ from rfl,
      hM i hi, hM j hj]
    have hijn : (i : ℕ) < (j : ℕ) := hij
    have : ((i : ℕ) : ℚ) + 1 ≤ ((j : ℕ) : ℚ) + 1 := by
      exact_mod_cast Nat.succ_le_succ (le_of_lt hijn)
    exact mul_le_mul_of_nonneg_left this hs
  have hdfo : sortByKey id (ol.map fun o => magnitude (sc.pos o)) =
      ol.map fun o => magnitude (sc.pos o) := sortByKey_of_sorted hMs
  rw [if_equally_spaced, hdfo]
  have h1 : 1 < (ol.map fun o => magnitude (sc.pos o)).length := by omega
  have h0 : 0 < (ol.map fun o => magnitude (sc.pos o)).length := by omega
  rw [List.getElem?_eq_getElem h1, List.getElem?_eq_getElem h0]
  show Except.ok (!List.contains _ false) = _
  congr 1
  rw [bool_not_contains_false, List.all_eq_true]
  intro x hx
  obtain ⟨p, hp, rfl⟩ := List.mem_map.mp hx
  obtain ⟨⟨i, hi⟩, rfl⟩ := List.mem_iff_get.mp hp
  simp only [decide_eq_true_eq]
  rw [consecPairs_getElem]
  have hi2 : i + 1 < ol.length := by
    rw [consecPairs_length] at hi
    omega
  rw [hM i (by omega), hM (i+1) hi2]
  have hd0 : ((ol.map fun o => magnitude (sc.pos o))[0] : ℚ) =
      s * ((0 : ℚ) + 1) := hM 0 (by omega)
  have hd1 : ((ol.map fun o => magnitude (sc.pos o))[1] : ℚ) =
      s * ((1 : ℚ) + 1) := by
    have := hM 1 (by omega)
    simpa using this
  rw [hd0, hd1]
  push_cast
  ring

/-- C10, amended: on a deduplicated object list of at least 2 objects with at
least one sphere, positive furthest-sphere distance, and no solid-marked name
classified as a sphere, the arrangement produced by `fix_arrangement`
satisfies all four predicates when re-checked in distance-sorted order (which
coincides with the canonical order). -/
theorem c10_corrected_passes (sc : Scene) (l : List String)
    (hex : ∃ o ∈ l, strContains o "pSphere" = true)
    (hnd : l.Nodup) (h2 : 2 ≤ l.length)
    (hsol : ∀ o ∈ l, strContains o "pSolid" = true →
      strContains o "Sphere" = false)
    (hDpos : ∀ D, distance_for_furthestsphere sc l = .ok D → 0 < D) :
    ∃ plan, fix_arrangement sc l = .ok plan ∧
      sortByKey (distance_from_center (applyPlan sc plan)) l =
        new_order_for_fixed_arrangement sc l ∧
      check_if_in_line (applyPlan sc plan)
        (new_order_for_fixed_arrangement sc l) = true ∧
      if_equally_spaced (applyPlan sc plan)
        (new_order_for_fixed_arrangement sc l) = .ok true ∧
      if_right_order (applyPlan sc plan)
        (new_order_for_fixed_arrangement sc l) = true ∧
      if_right_order_poly (applyPlan sc plan)
        (new_order_for_fixed_arrangement sc l) = true := by
  obtain ⟨f, hfmem, hfs, hdfs, hmax, hn, hfix⟩ := fix_arrangement_eq sc l hex
  have hncast : ((no_of_spheres l : ℚ)) ≠ 0 := by
    exact_mod_cast Nat.pos_iff_ne_zero.mp hn
  have hD : 0 < distance_from_center sc f := hDpos _ hdfs
  have hspos : 0 < distance_from_center sc f / (no_of_spheres l : ℚ) :=
    div_pos hD (by exact_mod_cast hn)
  have hs : 0 ≤ distance_from_center sc f / (no_of_spheres l : ℚ) :=
    le_of_lt hspos
  have holen : (new_order_for_fixed_arrangement sc l).length = l.length :=
    (order_perm sc l).length_eq
  refine ⟨_, hfix, ?_, ?_, ?_, ?_, ?_⟩
  · -- distance-sorting the corrected scene reproduces the canonical order
    apply sortByKey_eq_of_strict (order_perm sc l).symm
    rw [List.pairwise_iff_get]
    intro i j hij
    show distance_from_center _ _ < distance_from_center _ _
    rw [show (new_order_for_fixed_arrangement sc l).get i =
        (new_order_for_fixed_arrangement sc l).get ⟨(i : ℕ), i.isLt⟩ from rfl,
      show (new_order_for_fixed_arrangement sc l).get j =
        (new_order_for_fixed_arrangement sc l).get ⟨(j : ℕ), j.isLt⟩ from rfl,
      dist_after_plan sc l _ hs hnd (i : ℕ) i.isLt,
      dist_after_plan sc l _ hs hnd (j : ℕ) j.isLt]
    have hijn : (i : ℕ) < (j : ℕ) := hij
    have hcast : ((i : ℕ) : ℚ) + 1 < ((j : ℕ) : ℚ) + 1 := by
      exact_mod_cast Nat.succ_lt_succ hijn
    exact mul_lt_mul_of_pos_left hcast hspos
  · -- collinearity: all positions are on the x-axis
    rw [check_if_in_line]
    apply (inLinePositions_iff _).mpr
    intro i h
    have hol : i + 2 < (new_order_for_fixed_arrangement sc l).length := by
      rw [List.length_map] at h
      exact h
    have hpos : ∀ (k : ℕ) (hk : k < (new_order_for_fixed_arrangement sc l).length)
        (hk2 : k < ((new_order_for_fixed_arrangement sc l).map
          (applyPlan sc (canonical_plan sc l
            (distance_from_center sc f / (no_of_spheres l : ℚ)))).pos).length),
        ((new_order_for_fixed_arrangement sc l).map
          (applyPlan sc (canonical_plan sc l
            (distance_from_center sc f / (no_of_spheres l : ℚ)))).pos).get
            ⟨k, hk2⟩ =
        ⟨(distance_from_center sc f / (no_of_spheres l : ℚ)) * ((k : ℚ) + 1),
          0, 0⟩ := by
      intro k hk hk2
      rw [List.get_eq_getElem, List.getElem_map]
      exact pos_after_plan sc l _ hnd k hk
    rw [hpos i (by omega) (by rw [List.length_map]; omega),
      hpos (i+1) (by omega) (by rw [List.length_map]; omega),
      hpos (i+2) (by omega) (by rw [List.length_map]; omega)]
    exact cross_xaxis _ _ _
  · -- equal spacing with gap s
    apply if_equally_spaced_arith _ _ _ hs (by omega)
    intro i h
    exact magnitude_after_plan sc l _ hs hnd i h
  · -- sphere-before-solid ordering
    apply (if_right_order_eq_true_iff _ _).mpr
    intro o ho hps o2 ho2 hsn
    have hosph : strContains o "Sphere" = true := sphere_of_pSphere hps
    have ho' : o ∈ sortByKey (distance_from_center sc)
        (l.filter fun o => strContains o "Sphere") ++
        sortByKey sc.faces (l.filter fun o => !strContains o "Sphere") := ho
    rcases List.mem_append.mp ho' with hoA | hoB
    swap
    · exfalso
      have := List.mem_filter.mp ((sortByKey_perm _ _).subset hoB)
      rw [hosph] at this
      simp at this
    obtain ⟨⟨io, hioA⟩, hgo⟩ := List.mem_iff_get.mp hoA
    have hiorder : io < (new_order_for_fixed_arrangement sc l).length := by
      rw [new_order_for_fixed_arrangement, List.length_append]
      omega
    have ho1 : (new_order_for_fixed_arrangement sc l).get ⟨io, hiorder⟩ = o := by
      rw [List.get_eq_getElem]
      show (_ ++ _)[io] = o
      rw [List.getElem_append_left hioA]
      exact hgo
    have hdo := dist_after_plan sc l _ hs hnd io hiorder
    rw [ho1] at hdo
    have hps2 : strContains o2 "pSolid" = true :=
      pSolid_of_push o2 (lastChar o) hsn
    have hs2 : strContains o2 "Sphere" = false :=
      hsol o2 ((order_perm sc l).subset ho2) hps2
    obtain ⟨⟨ko, hko⟩, hgo2⟩ := List.mem_iff_get.mp ho2
    have hkoge : (sortByKey (distance_from_center sc)
        (l.filter fun o => strContains o "Sphere")).length ≤ ko := by
      by_contra hlt
      push_neg at hlt
      have heq : (new_order_for_fixed_arrangement sc l).get ⟨ko, hko⟩ =
          (sortByKey (distance_from_center sc)
            (l.filter fun o => strContains o "Sphere")).get ⟨ko, hlt⟩ := by
        rw [List.get_eq_getElem, List.get_eq_getElem]
        show (_ ++ _)[ko] = _
        rw [List.getElem_append_left hlt]
      rw [hgo2] at heq
      have hmemA : o2 ∈ sortByKey (distance_from_center sc)
          (l.filter fun o => strContains o "Sphere") := by
        rw [heq]
        exact List.get_mem _ ko hlt
      have := List.mem_filter.mp ((sortByKey_perm _ _).subset hmemA)
      rw [hs2] at this
      exact absurd this.2 (by simp)
    have hdo2 := dist_after_plan sc l _ hs hnd ko hko
    rw [hgo2] at hdo2
    rw [hdo, hdo2]
    apply not_lt.mpr
    apply mul_le_mul_of_nonneg_left _ hs
    have hlast : io + 1 ≤ ko + 1 := by omega
    exact_mod_cast hlast
  · -- face-count ordering along the solid block
    apply (if_right_order_poly_eq_true_iff _ _).mpr
    intro i h
    have hfil : (new_order_for_fixed_arrangement sc l).filter
        (fun o => strContains o "pSolid") =
        (sortByKey sc.faces (l.filter fun o => !strContains o "Sphere")).filter
          (fun o => strContains o "pSolid") := by
      show ((sortByKey (distance_from_center sc)
          (l.filter fun o => strContains o "Sphere")) ++
          (sortByKey sc.faces (l.filter fun o => !strContains o "Sphere"))).filter
          (fun o => strContains o "pSolid") = _
      rw [List.filter_append]
      have hnilA : (sortByKey (distance_from_center sc)
          (l.filter fun o => strContains o "Sphere")).filter
          (fun o => strContains o "pSolid") = [] := by
        rw [List.filter_eq_nil_iff]
        intro x hx
        have hm := List.mem_filter.mp ((sortByKey_perm _ _).subset hx)
        intro hcs
        have := hsol x hm.1 hcs
        rw [this] at hm
        exact absurd hm.2 (by simp)
      rw [hnilA, List.nil_append]
    have hfaces : (applyPlan sc (canonical_plan sc l
        (distance_from_center sc f / (no_of_spheres l : ℚ)))).faces =
        sc.faces := applyPlan_faces _ _
    have hpw : ((new_order_for_fixed_arrangement sc l).filter
        (fun o => strContains o "pSolid")).Pairwise (keyLE sc.faces) := by
      rw [hfil]
      exact (sortByKey_sorted sc.faces _).sublist (List.filter_sublist _)
    have hpg := List.pairwise_iff_get.mp hpw
    rw [hfaces]
    have hlt : i < ((new_order_for_fixed_arrangement sc l).filter
        (fun o => strContains o "pSolid")).length := by omega
    exact hpg ⟨i, hlt⟩ ⟨i+1, h⟩ (by simp)

/-- Scene for the C10 counterexample and witnesses. -/
def c10Scene : Scene :=
  ⟨fun o => if o = "pSphere1" then ⟨1, 0, 0⟩ else ⟨5, 0, 0⟩, fun _ => 4⟩

/-- C10, counterexample to the claim as stated: a single-sphere list has a
positive furthest-sphere distance and a successful fix, but re-checking the
predicates on the corrected scene does not make them all return true —
`if_equally_spaced` raises an `IndexError` on the one-element list. -/
theorem c10_counterexample :
    fix_arrangement c10Scene ["pSphere1"] = .ok [("pSphere1", ⟨1, 0, 0⟩)] ∧
    distance_for_furthestsphere c10Scene ["pSphere1"] = .ok 1 ∧
    sortByKey (distance_from_center
      (applyPlan c10Scene [("pSphere1", ⟨1, 0, 0⟩)])) ["pSphere1"] =
      ["pSphere1"] ∧
    if_equally_spaced (applyPlan c10Scene [("pSphere1", ⟨1, 0, 0⟩)])
      ["pSphere1"] = .error .indexError := by
  with_unfolding_all decide

/-- C10 witness: the amended statement at a concrete sphere-and-solid set. -/
theorem c10_corrected_passes_witness :
    ∃ plan, fix_arrangement c10Scene ["pSphere1", "pSolid1"] = .ok plan ∧
      sortByKey (distance_from_center (applyPlan c10Scene plan))
        ["pSphere1", "pSolid1"] =
        new_order_for_fixed_arrangement c10Scene ["pSphere1", "pSolid1"] ∧
      check_if_in_line (applyPlan c10Scene plan)
        (new_order_for_fixed_arrangement c10Scene ["pSphere1", "pSolid1"]) =
        true ∧
      if_equally_spaced (applyPlan c10Scene plan)
        (new_order_for_fixed_arrangement c10Scene ["pSphere1", "pSolid1"]) =
        .ok true ∧
      if_right_order (applyPlan c10Scene plan)
        (new_order_for_fixed_arrangement c10Scene ["pSphere1", "pSolid1"]) =
        true ∧
      if_right_order_poly (applyPlan c10Scene plan)
        (new_order_for_fixed_arrangement c10Scene ["pSphere1", "pSolid1"]) =
        true :=
  c10_corrected_passes c10Scene ["pSphere1", "pSolid1"] (by decide) (by decide)
    (by decide) (by decide)
    (fun D h => by
      rw [show distance_for_furthestsphere c10Scene ["pSphere1", "pSolid1"] =
        .ok 1 from by with_unfolding_all decide] at h
      cases h
      norm_num)

/-! ### C2: the orchestrator's correction schedule -/

theorem boolFailCount (b : Bool) :
    (if (!b) = true then 1 else 0) = (if b = false then 1 else 0) := by
  cases b <;> rfl

theorem boolFailCount_le (b : Bool) : (if b = false then 1 else 0) ≤ 1 := by
  cases b <;> simp

theorem bool_true_of_ne_false (b : Bool) (h : ¬ b = false) : b = true := by
  cases b
  · exact absurd rfl h
  · rfl

theorem fixIf_ok (c : Bool) (ol : List String) (p : Scene × ℕ)
    (hex : ∃ o ∈ ol, strContains o "pSphere" = true) :
    ∃ sc2, fixIf c ol p = .ok (sc2, p.2 + (if c = true then 1 else 0)) := by
  cases c
  · exact ⟨p.1, by simp [fixIf]⟩
  · obtain ⟨f, _, _, _, _, _, hfix⟩ := fix_arrangement_eq p.1 ol hex
    refine ⟨applyPlan p.1 (canonical_plan p.1 ol
      (distance_from_center p.1 f / (no_of_spheres ol : ℚ))), ?_⟩
    simp [fixIf, hfix]

theorem acf_eq (sc : Scene) (raw : List String) (b1 : Bool)
    (h1 : if_equally_spaced sc
      (sortByKey (distance_from_center sc) (shapeFilterLoop raw)) = .ok b1) :
    arrangement_check_and_fix sc raw =
      (fixIf (!b1) (sortByKey (distance_from_center sc) (shapeFilterLoop raw))
          (sc, 0)).bind fun p =>
        (fixIf (!check_if_in_line sc (sortByKey (distance_from_center sc)
            (shapeFilterLoop raw)))
          (sortByKey (distance_from_center sc) (shapeFilterLoop raw)) p).bind
          fun q =>
            fixIf (!(if_right_order sc (sortByKey (distance_from_center sc)
                (shapeFilterLoop raw)) ||
              if_right_order_poly sc (sortByKey (distance_from_center sc)
                (shapeFilterLoop raw))))
              (sortByKey (distance_from_center sc) (shapeFilterLoop raw)) q := by
  simp only [arrangement_check_and_fix]
  rw [h1]

/-- C2: after sorting the shape-filtered list by distance from origin, the
correction is invoked once for each failed category — equal spacing,
collinearity, and the combined ordering category (sphere-order and face-order
both failing) — so up to three times, each time on the same original sorted
list; it is invoked at least once exactly when equal spacing fails, or
collinearity fails, or both ordering predicates fail. -/
theorem c2_orchestrator (sc : Scene) (raw : List String) (ol : List String)
    (b1 : Bool)
    (hol : ol = sortByKey (distance_from_center sc) (shapeFilterLoop raw))
    (h1 : if_equally_spaced sc ol = .ok b1)
    (hex : ∃ o ∈ ol, strContains o "pSphere" = true) :
    ∃ (sc3 : Scene) (k : ℕ) (p1 p2 : Scene × ℕ),
      arrangement_check_and_fix sc raw = .ok (sc3, k) ∧
      fixIf (!b1) ol (sc, 0) = .ok p1 ∧
      fixIf (!check_if_in_line sc ol) ol p1 = .ok p2 ∧
      fixIf (!(if_right_order sc ol || if_right_order_poly sc ol)) ol p2 =
        .ok (sc3, k) ∧
      k = (if b1 = false then 1 else 0) +
          (if check_if_in_line sc ol = false then 1 else 0) +
          (if (if_right_order sc ol || if_right_order_poly sc ol) = false
            then 1 else 0) ∧
      k ≤ 3 ∧
      (1 ≤ k ↔ (b1 = false ∨ check_if_in_line sc ol = false ∨
        (if_right_order sc ol = false ∧ if_right_order_poly sc ol = false))) := by
  subst hol
  obtain ⟨s1, hf1⟩ := fixIf_ok (!b1) _ (sc, 0) hex
  rw [boolFailCount] at hf1
  obtain ⟨s2, hf2⟩ := fixIf_ok
    (!check_if_in_line sc (sortByKey (distance_from_center sc)
      (shapeFilterLoop raw))) _
    (s1, 0 + (if b1 = false then 1 else 0)) hex
  rw [boolFailCount] at hf2
  obtain ⟨s3, hf3⟩ := fixIf_ok
    (!(if_right_order sc (sortByKey (distance_from_center sc)
        (shapeFilterLoop raw)) ||
      if_right_order_poly sc (sortByKey (distance_from_center sc)
        (shapeFilterLoop raw)))) _
    (s2, 0 + (if b1 = false then 1 else 0) +
      (if check_if_in_line sc (sortByKey (distance_from_center sc)
        (shapeFilterLoop raw)) = false then 1 else 0)) hex
  rw [boolFailCount] at hf3
  refine ⟨s3, _, _, _, ?_, hf1, hf2, hf3, ?_, ?_, ?_⟩
  · rw [acf_eq sc raw b1 h1, hf1]
    show Except.bind _ _ = _
    rw [Except.bind, hf2]
    show Except.bind _ _ = _
    rw [Except.bind, hf3]
  · simp only [Nat.zero_add]
  · have ha := boolFailCount_le b1
    have hb := boolFailCount_le (check_if_in_line sc
      (sortByKey (distance_from_center sc) (shapeFilterLoop raw)))
    have hc := boolFailCount_le (if_right_order sc (sortByKey
        (distance_from_center sc) (shapeFilterLoop raw)) ||
      if_right_order_poly sc (sortByKey (distance_from_center sc)
        (shapeFilterLoop raw)))
    omega
  · rw [Nat.zero_add]
    constructor
    · intro hk
      by_cases hb1 : b1 = false
      · exact Or.inl hb1
      by_cases hb2 : check_if_in_line sc (sortByKey (distance_from_center sc)
        (shapeFilterLoop raw)) = false
      · exact Or.inr (Or.inl hb2)
      by_cases hb4 : if_right_order sc (sortByKey (distance_from_center sc)
        (shapeFilterLoop raw)) = false
      · by_cases hb3 : if_right_order_poly sc (sortByKey
          (distance_from_center sc) (shapeFilterLoop raw)) = false
        · exact Or.inr (Or.inr ⟨hb4, hb3⟩)
        · exfalso
          rw [bool_true_of_ne_false _ hb1, bool_true_of_ne_false _ hb2,
            show (if_right_order sc (sortByKey (distance_from_center sc)
                (shapeFilterLoop raw)) ||
              if_right_order_poly sc (sortByKey (distance_from_center sc)
                (shapeFilterLoop raw))) = true from by
              rw [bool_true_of_ne_false _ hb3]
              simp] at hk
          simp at hk
      · exfalso
        rw [bool_true_of_ne_false _ hb1, bool_true_of_ne_false _ hb2,
          show (if_right_order sc (sortByKey (distance_from_center sc)
              (shapeFilterLoop raw)) ||
            if_right_order_poly sc (sortByKey (distance_from_center sc)
              (shapeFilterLoop raw))) = true from by
            rw [bool_true_of_ne_false _ hb4]
            simp] at hk
        simp at hk
    · intro hd
      rcases hd with h | h | h
      · rw [h]
        simp only [if_pos rfl]
        calc 1 ≤ 1 + (if check_if_in_line sc (sortByKey
              (distance_from_center sc) (shapeFilterLoop raw)) = false
              then 1 else 0) := Nat.le_add_right _ _
          _ ≤ _ := Nat.le_add_right _ _
      · rw [h]
        simp only [if_pos rfl]
        calc 1 ≤ (if b1 = false then 1 else 0) + 1 := Nat.le_add_left _ _
          _ ≤ _ := Nat.le_add_right _ _
      · have hor : (if_right_order sc (sortByKey (distance_from_center sc)
            (shapeFilterLoop raw)) ||
            if_right_order_poly sc (sortByKey (distance_from_center sc)
              (shapeFilterLoop raw))) = false := by
          rw [h.1, h.2]
          rfl
        rw [hor]
        simp only [if_pos rfl]
        exact Nat.le_add_left _ _

/-- C2 witness: a concrete pass in which every category passes and the
correction is never invoked. -/
theorem c2_orchestrator_witness :
    ∃ (sc3 : Scene) (k : ℕ) (p1 p2 : Scene × ℕ),
      arrangement_check_and_fix c10Scene ["pSphere1", "pSolid1"] =
        .ok (sc3, k) ∧
      fixIf (!true) ["pSphere1", "pSolid1"] (c10Scene, 0) = .ok p1 ∧
      fixIf (!check_if_in_line c10Scene ["pSphere1", "pSolid1"])
        ["pSphere1", "pSolid1"] p1 = .ok p2 ∧
      fixIf (!(if_right_order c10Scene ["pSphere1", "pSolid1"] ||
        if_right_order_poly c10Scene ["pSphere1", "pSolid1"]))
        ["pSphere1", "pSolid1"] p2 = .ok (sc3, k) ∧
      k = (if true = false then 1 else 0) +
          (if check_if_in_line c10Scene ["pSphere1", "pSolid1"] = false
            then 1 else 0) +
          (if (if_right_order c10Scene ["pSphere1", "pSolid1"] ||
            if_right_order_poly c10Scene ["pSphere1", "pSolid1"]) = false
            then 1 else 0) ∧
      k ≤ 3 ∧
      (1 ≤ k ↔ (true = false ∨
        check_if_in_line c10Scene ["pSphere1", "pSolid1"] = false ∨
        (if_right_order c10Scene ["pSphere1", "pSolid1"] = false ∧
          if_right_order_poly c10Scene ["pSphere1", "pSolid1"] = false))) :=
  c2_orchestrator c10Scene ["pSphere1", "pSolid1"] ["pSphere1", "pSolid1"]
    true (by with_unfolding_all decide) (by with_unfolding_all decide)
    (by decide)

end AstroCheck
